import Mathlib

/-!
Nightcap: a fixed-pool, time-ordered event chain.

A shallow embedding of `nightcap.c` / `nightclub.h`.

* A `nightcap_event_t *` is a pool slot index (`Fin 16`) or `NULL` (`none`).
* `uint32_t` values are natural numbers; arithmetic that can wrap is reduced
  modulo `2 ^ 32` explicitly.
* Loops that follow `next` pointers take a step budget and return `none` when
  the budget runs out (the C loop has not exited yet).
* Callbacks are function pointers (numbers); what a call does to the chain is
  given by a `run` parameter of `nightcap_chain_dequeue`.
-/

namespace Nightcap

/-! ## Definitions -/

/-- Pool capacity, `#define NIGHTCAP_MAX_EVENTS (16)`. -/
abbrev NIGHTCAP_MAX_EVENTS : Nat := 16

/-- Number of values of a `uint32_t`. -/
abbrev UINT32_MOD : Nat := 4294967296

/-- Subtraction of two `uint32_t` values, wrapping modulo `2 ^ 32`. -/
def u32_sub (a b : Nat) : Nat := (a + UINT32_MOD - b) % UINT32_MOD

/-- Addition of two `uint32_t` values, wrapping modulo `2 ^ 32`. -/
def u32_add (a b : Nat) : Nat := (a + b) % UINT32_MOD

/-- Function `nightcap_floorsnap`: `time - time % snap` in `uint32_t` arithmetic.
A zero `snap` is a division by zero (`none`). -/
def nightcap_floorsnap (time snap : Nat) : Option Nat :=
  if snap = 0 then none else some (u32_sub time (time % snap))

/-- Function `nightcap_ceilsnap`: `time - time % snap + snap` in `uint32_t` arithmetic.
A zero `snap` is a division by zero (`none`). -/
def nightcap_ceilsnap (time snap : Nat) : Option Nat :=
  if snap = 0 then none else some (u32_add (u32_sub time (time % snap)) snap)

/-- Record `nightcap_event_t`; `flags.queued` and `flags.repeating` are flattened into
the record, pointers (`name`, `callback`, `params`) are numbers with `0` for
`NULL`, and `next` is a pool slot or `NULL`. -/
structure nightcap_event_t where
  queued : Bool
  repeating : Bool
  name : Nat
  time : Nat
  callback : Nat
  params : Nat
  next : Option (Fin NIGHTCAP_MAX_EVENTS)
deriving DecidableEq

/-- Record `nightcap_chain_t`: mutation flag, head pointer and the pool of 16 slots. -/
structure nightcap_chain_t where
  _mut_flag : Bool
  head : Option (Fin NIGHTCAP_MAX_EVENTS)
  events : Fin NIGHTCAP_MAX_EVENTS → nightcap_event_t

/-- Store `e` into slot `i` of a pool. -/
def pool_set (events : Fin NIGHTCAP_MAX_EVENTS → nightcap_event_t)
    (i : Fin NIGHTCAP_MAX_EVENTS) (e : nightcap_event_t) :
    Fin NIGHTCAP_MAX_EVENTS → nightcap_event_t :=
  fun j => if j = i then e else events j

/-- Function `nightcap_event_init`. -/
def nightcap_event_init (evt : nightcap_event_t) (time callback : Nat)
    (repeating : Bool) : nightcap_event_t :=
  { evt with queued := true, repeating := repeating, time := time,
             callback := callback, next := none }

/-- Function `nightcap_event_reinit`. -/
def nightcap_event_reinit (evt : nightcap_event_t) (time : Nat) : nightcap_event_t :=
  { evt with queued := true, time := time, next := none }

/-- Function `nightcap_chain_init`: `memset` of the whole chain to zero. -/
def nightcap_chain_init : nightcap_chain_t :=
  { _mut_flag := false, head := none,
    events := fun _ => { queued := false, repeating := false, name := 0, time := 0,
                         callback := 0, params := 0, next := none } }

/-- Function `nightcap_chain_get_unqueued_event`: the first slot, in index order, whose
`queued` flag is clear, or `NULL`. It only reads the chain. -/
def nightcap_chain_get_unqueued_event (chain : nightcap_chain_t) :
    Option (Fin NIGHTCAP_MAX_EVENTS) :=
  (List.finRange NIGHTCAP_MAX_EVENTS).find? (fun i => !(chain.events i).queued)

/-- Function `nightcap_chain_get_queued_event_count`: `counter += flags.queued` over the pool. -/
def nightcap_chain_get_queued_event_count (chain : nightcap_chain_t) : Nat :=
  (List.finRange NIGHTCAP_MAX_EVENTS).foldl
    (fun counter i => counter + (if (chain.events i).queued then 1 else 0)) 0

/-- The `while (traversal_ptr->next != NULL)` loop of `nightcap_chain_queue`
together with the store `traversal_ptr->next = evt` that follows it. The loop
only reads the pool; one unit of budget is spent per test of the loop
condition. -/
def nightcap_chain_queue_loop (evt : Fin NIGHTCAP_MAX_EVENTS) :
    Nat → (Fin NIGHTCAP_MAX_EVENTS → nightcap_event_t) → Fin NIGHTCAP_MAX_EVENTS →
    Option (Fin NIGHTCAP_MAX_EVENTS → nightcap_event_t)
  | 0, _, _ => none
  | fuel + 1, events, traversal_ptr =>
    match (events traversal_ptr).next with
    | none =>
      some (pool_set events traversal_ptr { events traversal_ptr with next := some evt })
    | some nxt =>
      if (events evt).time > (events traversal_ptr).time ∧
          (events evt).time < (events nxt).time then
        let events1 := pool_set events evt { events evt with next := some nxt }
        some (pool_set events1 traversal_ptr { events1 traversal_ptr with next := some evt })
      else
        nightcap_chain_queue_loop evt fuel events nxt

/-- Function `nightcap_chain_queue`. -/
def nightcap_chain_queue (fuel : Nat) (chain : nightcap_chain_t)
    (evt : Fin NIGHTCAP_MAX_EVENTS) : Option nightcap_chain_t :=
  match chain.head with
  | none =>
    some { _mut_flag := true, head := some evt,
           events := pool_set chain.events evt { chain.events evt with next := none } }
  | some h =>
    if (chain.events evt).time < (chain.events h).time then
      some { _mut_flag := true, head := some evt,
             events := pool_set chain.events evt { chain.events evt with next := some h } }
    else
      (nightcap_chain_queue_loop evt fuel chain.events h).map
        (fun events => { chain with events := events, _mut_flag := true })

/-- Function `nightcap_schedule`: the resulting chain and the returned `bool`. -/
def nightcap_schedule (fuel : Nat) (chain : nightcap_chain_t) (time callback : Nat)
    (repeating : Bool) : Option (nightcap_chain_t × Bool) :=
  match nightcap_chain_get_unqueued_event chain with
  | none => some (chain, false)
  | some evt =>
    let evt1 := nightcap_event_init (chain.events evt) time callback repeating
    let chain1 : nightcap_chain_t := { chain with events := pool_set chain.events evt evt1 }
    (nightcap_chain_queue fuel chain1 evt).map (fun c => (c, true))

/-- Function `nightcap_reschedule`. -/
def nightcap_reschedule (fuel : Nat) (chain : nightcap_chain_t)
    (evt : Fin NIGHTCAP_MAX_EVENTS) (time : Nat) : Option nightcap_chain_t :=
  let evt1 := nightcap_event_reinit (chain.events evt) time
  let chain1 : nightcap_chain_t := { chain with events := pool_set chain.events evt evt1 }
  nightcap_chain_queue fuel chain1 evt

/-- Function `nightcap_chain_dequeue`. `run callback evt chain` is the chain left by the
call `callback(evt)`, or `none` when the call does not return. The result is
the final chain and the slots whose callbacks were invoked, in order. One unit
of budget is spent per test of the loop condition. -/
def nightcap_chain_dequeue
    (run : Nat → Fin NIGHTCAP_MAX_EVENTS → nightcap_chain_t → Option nightcap_chain_t) :
    Nat → nightcap_chain_t → Nat →
    Option (nightcap_chain_t × List (Fin NIGHTCAP_MAX_EVENTS))
  | 0, _, _ => none
  | fuel + 1, chain, time =>
    match chain.head with
    | none => some (chain, [])
    | some evt =>
      if time ≥ (chain.events evt).time then
        let chain1 : nightcap_chain_t :=
          { chain with head := (chain.events evt).next, _mut_flag := false }
        match run (chain1.events evt).callback evt chain1 with
        | none => none
        | some chain2 =>
          let evt1 : nightcap_event_t :=
            { chain2.events evt with
              queued := (chain2.events evt).queued && (chain2.events evt).repeating }
          let chain3 : nightcap_chain_t :=
            { chain2 with events := pool_set chain2.events evt evt1 }
          (nightcap_chain_dequeue run fuel chain3 time).map
            (fun r => (r.1, evt :: r.2))
      else some (chain, [])

/-- Callbacks that return without touching the chain. -/
def run_inert : Nat → Fin NIGHTCAP_MAX_EVENTS → nightcap_chain_t → Option nightcap_chain_t :=
  fun _ _ chain => some chain

/-- Follow `next` from `p` until `NULL`, collecting the slots visited; `none`
when `NULL` is not reached within the budget. -/
def chain_walk (events : Fin NIGHTCAP_MAX_EVENTS → nightcap_event_t) :
    Nat → Option (Fin NIGHTCAP_MAX_EVENTS) → Option (List (Fin NIGHTCAP_MAX_EVENTS))
  | _, none => some []
  | 0, some _ => none
  | fuel + 1, some i => (chain_walk events fuel (events i).next).map (fun l => i :: l)

/-- The events reachable from `chain->head`, in order. A walk over 16 slots
that has not reached `NULL` after 16 nodes is on a cycle. -/
def chain_nodes (chain : nightcap_chain_t) : Option (List (Fin NIGHTCAP_MAX_EVENTS)) :=
  chain_walk chain.events NIGHTCAP_MAX_EVENTS chain.head

/-- The times of the events reachable from `chain->head`, in order. -/
def chain_times (chain : nightcap_chain_t) : Option (List Nat) :=
  (chain_nodes chain).map (fun l => l.map (fun i => (chain.events i).time))

/-- Apply `nightcap_schedule` once per `(time, callback, repeating)` triple,
left to right; the returned `bool`s are dropped. -/
def schedule_all (fuel : Nat) :
    nightcap_chain_t → List (Nat × Nat × Bool) → Option nightcap_chain_t
  | chain, [] => some chain
  | chain, (time, callback, repeating) :: rest =>
    match nightcap_schedule fuel chain time callback repeating with
    | none => none
    | some (chain1, _) => schedule_all fuel chain1 rest

/-- The `next` links starting at pointer `p` visit exactly the slots of `l`, in
order, and then reach `NULL`. -/
def Linked (events : Fin NIGHTCAP_MAX_EVENTS → nightcap_event_t) :
    Option (Fin NIGHTCAP_MAX_EVENTS) → List (Fin NIGHTCAP_MAX_EVENTS) → Prop
  | p, [] => p = none
  | p, i :: l => p = some i ∧ Linked events (events i).next l

/-- What the loop of `nightcap_chain_queue` does to the list of nodes from
`traversal_ptr` on, with `tm` the time of each slot: `evt` goes between the
first adjacent pair whose times strictly enclose its own, else to the tail. -/
def list_queue_loop (tm : Fin NIGHTCAP_MAX_EVENTS → Nat) (evt : Fin NIGHTCAP_MAX_EVENTS) :
    List (Fin NIGHTCAP_MAX_EVENTS) → List (Fin NIGHTCAP_MAX_EVENTS)
  | [] => [evt]
  | [tp] => [tp, evt]
  | tp :: nxt :: rest =>
    if tm evt > tm tp ∧ tm evt < tm nxt then tp :: evt :: nxt :: rest
    else tp :: list_queue_loop tm evt (nxt :: rest)

/-- What `nightcap_chain_queue` does to the list of nodes of the chain. -/
def list_queue (tm : Fin NIGHTCAP_MAX_EVENTS → Nat) (evt : Fin NIGHTCAP_MAX_EVENTS) :
    List (Fin NIGHTCAP_MAX_EVENTS) → List (Fin NIGHTCAP_MAX_EVENTS)
  | [] => [evt]
  | h :: rest => if tm evt < tm h then evt :: h :: rest else list_queue_loop tm evt (h :: rest)

/-- The first node of the list has the least time. -/
def HeadMin (tm : Fin NIGHTCAP_MAX_EVENTS → Nat) : List (Fin NIGHTCAP_MAX_EVENTS) → Prop
  | [] => True
  | h :: rest => ∀ x ∈ rest, tm h ≤ tm x

/-- No node has a time strictly between the times of an adjacent pair that
comes before it in the list. -/
def NoGap (tm : Fin NIGHTCAP_MAX_EVENTS → Nat) : List (Fin NIGHTCAP_MAX_EVENTS) → Prop
  | a :: b :: rest => (∀ x ∈ rest, ¬ (tm a < tm x ∧ tm x < tm b)) ∧ NoGap tm (b :: rest)
  | _ => True

/-- What holds of a chain built by `nightcap_schedule` calls alone: its nodes
`l` are linked from `head`, all flagged `queued`, the head has the least time,
and no node's time lies strictly inside an earlier adjacent pair. -/
def ScheduleInv (chain : nightcap_chain_t) (l : List (Fin NIGHTCAP_MAX_EVENTS)) : Prop :=
  Linked chain.events chain.head l ∧
  (∀ i ∈ l, (chain.events i).queued = true) ∧
  HeadMin (fun i => (chain.events i).time) l ∧
  NoGap (fun i => (chain.events i).time) l

/-- The chain left by a list of `nightcap_schedule` calls on a fresh chain
(the fresh chain itself should a call not return). -/
def chain_of_calls (calls : List (Nat × Nat × Bool)) : nightcap_chain_t :=
  (schedule_all NIGHTCAP_MAX_EVENTS nightcap_chain_init calls).getD nightcap_chain_init

/-- The caller's half of `nightcap_schedule`: slot `evt` freshly initialised by
`nightcap_event_init`, not yet handed to `nightcap_chain_queue`. -/
def chain_with_fresh_event (chain : nightcap_chain_t) (evt : Fin NIGHTCAP_MAX_EVENTS)
    (time callback : Nat) (repeating : Bool) : nightcap_chain_t :=
  let evt1 := nightcap_event_init (chain.events evt) time callback repeating
  { chain with events := pool_set chain.events evt evt1 }

/-- A chain the API reaches with a cycle: `nightcap_schedule` at time 10 takes
slot 0, then `nightcap_reschedule` of slot 0 (still in the chain) links it to
itself. -/
def cyclic_chain : nightcap_chain_t :=
  ((nightcap_schedule NIGHTCAP_MAX_EVENTS nightcap_chain_init 10 1 false).bind
    (fun r => nightcap_reschedule NIGHTCAP_MAX_EVENTS r.1 0 10)).getD nightcap_chain_init

/-- One call of the public API on the chain. -/
inductive api_call where
  | schedule (time callback : Nat) (repeating : Bool)
  | reschedule (evt : Fin NIGHTCAP_MAX_EVENTS) (time : Nat)
  | dequeue (now : Nat)

/-- Run one API call (callbacks fired by a dequeue leave the chain alone). -/
def api_step (fuel : Nat) (chain : nightcap_chain_t) : api_call → Option nightcap_chain_t
  | .schedule time callback repeating =>
    (nightcap_schedule fuel chain time callback repeating).map (fun r => r.1)
  | .reschedule evt time => nightcap_reschedule fuel chain evt time
  | .dequeue now => (nightcap_chain_dequeue run_inert fuel chain now).map (fun r => r.1)

/-- Run a sequence of API calls, left to right. -/
def api_run (fuel : Nat) : nightcap_chain_t → List api_call → Option nightcap_chain_t
  | chain, [] => some chain
  | chain, call :: rest =>
    match api_step fuel chain call with
    | none => none
    | some chain1 => api_run fuel chain1 rest

/-- The call is a dequeue, or a one-shot schedule at a time that no slot with
`queued` set has. -/
def tie_free_call (chain : nightcap_chain_t) : api_call → Bool
  | .schedule time _ repeating =>
    !repeating && (List.finRange NIGHTCAP_MAX_EVENTS).all
      (fun i => !(chain.events i).queued || (chain.events i).time != time)
  | .reschedule _ _ => false
  | .dequeue _ => true

/-- Every call of the sequence is `tie_free_call` on the chain it is made on. -/
def tie_free_run (fuel : Nat) : nightcap_chain_t → List api_call → Bool
  | _, [] => true
  | chain, call :: rest =>
    tie_free_call chain call &&
      (match api_step fuel chain call with
       | none => true
       | some chain1 => tie_free_run fuel chain1 rest)

/-- Pointer `chain->head` is `NULL` or has the least time among the slots with `queued` set. -/
def head_is_earliest_queued (chain : nightcap_chain_t) : Prop :=
  chain.head = none ∨
    ∃ h, chain.head = some h ∧
      ∀ i, (chain.events i).queued = true → (chain.events h).time ≤ (chain.events i).time

/-- What holds of a chain built by tie-free one-shot schedules and dequeues:
its nodes `l` are linked from `head` with strictly increasing times, they are
exactly the slots with `queued` set, and none is repeating. -/
def StrictInv (chain : nightcap_chain_t) (l : List (Fin NIGHTCAP_MAX_EVENTS)) : Prop :=
  Linked chain.events chain.head l ∧
  (∀ i, (chain.events i).queued = true ↔ i ∈ l) ∧
  (∀ i ∈ l, (chain.events i).repeating = false) ∧
  l.Pairwise (fun a b => (chain.events a).time < (chain.events b).time)

/-- Number of values of a `uint64_t`. -/
abbrev UINT64_MOD : Nat := 18446744073709551616

/-- Seconds to microseconds, `#define NIGHTCAP_S_TO_US (1000000ull)`. -/
abbrev NIGHTCAP_S_TO_US : Nat := 1000000

/-- Subtraction of two `uint64_t` values, wrapping modulo `2 ^ 64`. -/
def u64_sub (a b : Nat) : Nat := (a + UINT64_MOD - b) % UINT64_MOD

/-- Addition of two `uint64_t` values, wrapping modulo `2 ^ 64`. -/
def u64_add (a b : Nat) : Nat := (a + b) % UINT64_MOD

/-- Multiplication of two `uint64_t` values, wrapping modulo `2 ^ 64`. -/
def u64_mul (a b : Nat) : Nat := (a * b) % UINT64_MOD

/-- The value `epoch_us` of `nightcap_sleep_until_next_event`, from the
`tv_sec` and `tv_usec` that `gettimeofday` stored (already cast to `uint64_t`). -/
def sleep_epoch_us (tv_sec tv_usec : Nat) : Nat :=
  u64_add (u64_mul tv_sec NIGHTCAP_S_TO_US) tv_usec

/-- Function `nightcap_sleep_until_next_event` up to its call of
`esp_sleep_enable_timer_wakeup`: the result is the `sleep_time` handed to that
call, or `none` when the function returns early without sleeping. The clock
reading of `gettimeofday` is the pair `tv_sec`, `tv_usec`. -/
def nightcap_sleep_until_next_event (chain : nightcap_chain_t) (tv_sec tv_usec padding : Nat) :
    Option Nat :=
  match chain.head with
  | none => none
  | some h =>
    let epoch_us := sleep_epoch_us tv_sec tv_usec
    let target_epoch_us := u64_sub (u64_mul (chain.events h).time NIGHTCAP_S_TO_US) padding
    if target_epoch_us < epoch_us then some 0
    else some (u64_sub target_epoch_us epoch_us)

/-- Callbacks for a drain in which the callback of slot `evt` calls
`nightcap_reschedule(chain, evt, time)` on its own event and every other
callback leaves the chain alone. -/
def run_reschedule_slot (fuel : Nat) (evt : Fin NIGHTCAP_MAX_EVENTS) (time : Nat) :
    Nat → Fin NIGHTCAP_MAX_EVENTS → nightcap_chain_t → Option nightcap_chain_t :=
  fun _ fired chain =>
    if fired = evt then nightcap_reschedule fuel chain fired time else some chain

/-- A chain with a node whose `queued` flag is clear: a repeating event at 50
(slot 0) and a one-shot event at 5 (slot 1) are scheduled, then a drain at 10
fires slot 1, whose callback reschedules it to 100; the flag update after the
callback clears its `queued` flag while it is linked behind slot 0. -/
def chain_with_unqueued_node : nightcap_chain_t :=
  ((nightcap_chain_dequeue (run_reschedule_slot 17 1 100) 17
      (chain_of_calls [(50, 1, true), (5, 1, false)]) 10).map (fun r => r.1)).getD
    nightcap_chain_init

/-- The call is a dequeue or a `nightcap_schedule` with `repeating = false`. -/
def one_shot_call : api_call → Bool
  | .schedule _ _ repeating => !repeating
  | .reschedule _ _ => false
  | .dequeue _ => true

/-- What holds of a chain built by one-shot schedules and dequeues: its nodes
`l` are linked from `head`, they are exactly the slots with `queued` set, and
none is repeating. -/
def OneShotInv (chain : nightcap_chain_t) (l : List (Fin NIGHTCAP_MAX_EVENTS)) : Prop :=
  Linked chain.events chain.head l ∧
  (∀ i, (chain.events i).queued = true ↔ i ∈ l) ∧
  (∀ i ∈ l, (chain.events i).repeating = false)

/-- The call is a `nightcap_schedule`, or a `nightcap_reschedule` of a slot that
is not reachable from `head` on a chain whose walk reaches `NULL`. -/
def detached_call (chain : nightcap_chain_t) : api_call → Bool
  | .schedule _ _ _ => true
  | .reschedule evt _ =>
    match chain_nodes chain with
    | none => false
    | some l => decide (evt ∉ l)
  | .dequeue _ => false

/-- Every call of the sequence is `detached_call` on the chain it is made on. -/
def detached_run (fuel : Nat) : nightcap_chain_t → List api_call → Bool
  | _, [] => true
  | chain, call :: rest =>
    detached_call chain call &&
      (match api_step fuel chain call with
       | none => true
       | some chain1 => detached_run fuel chain1 rest)

/-- The arguments of the `nightcap_schedule` call that filled slot `i`, read
back from the slot: time, callback and repeating flag. -/
def event_call (chain : nightcap_chain_t) (i : Fin NIGHTCAP_MAX_EVENTS) : Nat × Nat × Bool :=
  ((chain.events i).time, (chain.events i).callback, (chain.events i).repeating)

/-- What holds of a chain built by the schedule calls `done`, whose times are
pairwise distinct: its nodes `l` are linked from `head` with strictly
increasing times, they are exactly the slots with `queued` set, and they hold
exactly the calls made. -/
def DistinctInv (chain : nightcap_chain_t) (l : List (Fin NIGHTCAP_MAX_EVENTS))
    (done : List (Nat × Nat × Bool)) : Prop :=
  Linked chain.events chain.head l ∧
  (∀ i, (chain.events i).queued = true ↔ i ∈ l) ∧
  l.Pairwise (fun a b => (chain.events a).time < (chain.events b).time) ∧
  (l.map (event_call chain)).Perm done

/-! ## Theorems -/

/-! ### Time utilities -/

theorem u32_sub_of_le {a b : Nat} (hb : b ≤ a) (ha : a < UINT32_MOD) : u32_sub a b = a - b := by
  unfold u32_sub
  have h : a + UINT32_MOD - b = (a - b) + UINT32_MOD := by omega
  rw [h, Nat.add_mod_right, Nat.mod_eq_of_lt (by omega)]

theorem sub_mod_self_mod (t s : Nat) : (t - t % s) % s = 0 := by
  have h := Nat.div_add_mod t s
  have h2 : t - t % s = s * (t / s) := by omega
  rw [h2, Nat.mul_mod_right]

/-- C10: for `uint32_t` values `t` and `s ≠ 0`, `nightcap_floorsnap(t, s)` is
`t - t % s` without wrap-around; it is at most `t`, a multiple of `s`, less than
`s` below `t`, and no multiple of `s` that is at most `t` exceeds it. -/
theorem floorsnap_largest_multiple (t s : Nat) (ht : t < UINT32_MOD) (_hs : s < UINT32_MOD)
    (hs0 : s ≠ 0) :
    ∃ r, nightcap_floorsnap t s = some r ∧ r = t - t % s ∧ r ≤ t ∧ r % s = 0 ∧ t - r < s ∧
      ∀ m, m % s = 0 → m ≤ t → m ≤ r := by
  have hmod : t % s ≤ t := Nat.mod_le t s
  have hlt : t % s < s := Nat.mod_lt t (Nat.pos_of_ne_zero hs0)
  refine ⟨t - t % s, ?_, rfl, Nat.sub_le _ _, sub_mod_self_mod t s, by omega, ?_⟩
  · simp [nightcap_floorsnap, hs0, u32_sub_of_le hmod ht]
  · intro m hm hmt
    by_contra hcon
    have h1 : t - t % s < m := by omega
    have h2 : (m - (t - t % s)) % s = 0 := by
      have hd1 : s ∣ m := Nat.dvd_of_mod_eq_zero hm
      have hd2 : s ∣ t - t % s := Nat.dvd_of_mod_eq_zero (sub_mod_self_mod t s)
      exact Nat.mod_eq_zero_of_dvd (Nat.dvd_sub' hd1 hd2)
    have h3 : m - (t - t % s) < s := by omega
    have h4 : m - (t - t % s) = 0 := by
      rw [Nat.mod_eq_of_lt h3] at h2
      exact h2
    omega

/-- C10 at `t = 100`, `s = 30`. -/
theorem floorsnap_largest_multiple_witness :
    (100 < UINT32_MOD ∧ 30 < UINT32_MOD ∧ 30 ≠ 0) ∧
    ∃ r, nightcap_floorsnap 100 30 = some r ∧ r = 100 - 100 % 30 ∧ r ≤ 100 ∧ r % 30 = 0 ∧
      100 - r < 30 ∧ ∀ m, m % 30 = 0 → m ≤ 100 → m ≤ r :=
  ⟨by decide, floorsnap_largest_multiple 100 30 (by decide) (by decide) (by decide)⟩

/-- C9 (as stated) fails: at `t = 2^32 - 1`, `s = 3` the sum wraps and
`nightcap_ceilsnap` returns `2`, which is neither above `t` nor a multiple of `3`. -/
theorem ceilsnap_wraps :
    4294967295 < UINT32_MOD ∧ 3 < UINT32_MOD ∧ nightcap_ceilsnap 4294967295 3 = some 2 ∧
      ¬ (4294967295 < 2) ∧ 2 % 3 ≠ 0 := by
  decide

/-- C9 (amended): for `uint32_t` values `t` and `s ≠ 0` with
`t - t % s + s ≤ 2^32 - 1`, `nightcap_ceilsnap(t, s)` is strictly greater than
`t` and a multiple of `s`. -/
theorem ceilsnap_future_aligned (t s : Nat) (ht : t < UINT32_MOD) (_hs : s < UINT32_MOD)
    (hs0 : s ≠ 0) (hfit : t - t % s + s < UINT32_MOD) :
    ∃ r, nightcap_ceilsnap t s = some r ∧ t < r ∧ r % s = 0 := by
  have hmod : t % s ≤ t := Nat.mod_le t s
  have hlt : t % s < s := Nat.mod_lt t (Nat.pos_of_ne_zero hs0)
  refine ⟨t - t % s + s, ?_, by omega, ?_⟩
  · simp [nightcap_ceilsnap, hs0, u32_sub_of_le hmod ht, u32_add, Nat.mod_eq_of_lt hfit]
  · rw [Nat.add_mod_right]
    exact sub_mod_self_mod t s

/-- C9 (amended) at `t = 100`, `s = 30`. -/
theorem ceilsnap_future_aligned_witness :
    (100 < UINT32_MOD ∧ 30 < UINT32_MOD ∧ 30 ≠ 0 ∧ 100 - 100 % 30 + 30 < UINT32_MOD) ∧
    ∃ r, nightcap_ceilsnap 100 30 = some r ∧ 100 < r ∧ r % 30 = 0 :=
  ⟨by decide, ceilsnap_future_aligned 100 30 (by decide) (by decide) (by decide) (by decide)⟩

/-! ### Slot acquisition -/

theorem get_unqueued_event_eq_none (chain : nightcap_chain_t) :
    nightcap_chain_get_unqueued_event chain = none ↔ ∀ i, (chain.events i).queued = true := by
  unfold nightcap_chain_get_unqueued_event
  rw [List.find?_eq_none]
  constructor
  · intro h i
    have := h i (List.mem_finRange i)
    simpa using this
  · intro h i _
    simp [h i]

theorem get_unqueued_event_eq_some (chain : nightcap_chain_t) (e : Fin NIGHTCAP_MAX_EVENTS)
    (h : nightcap_chain_get_unqueued_event chain = some e) :
    (chain.events e).queued = false ∧ ∀ j, j < e → (chain.events j).queued = true := by
  unfold nightcap_chain_get_unqueued_event at h
  rw [List.find?_eq_some] at h
  obtain ⟨hq, as, bs, hsplit, has⟩ := h
  refine ⟨by simpa using hq, ?_⟩
  intro j hj
  have hsorted : (List.finRange NIGHTCAP_MAX_EVENTS).Pairwise (· < ·) := List.pairwise_lt_finRange _
  rw [hsplit, List.pairwise_append] at hsorted
  obtain ⟨_, hcons, _⟩ := hsorted
  rw [List.pairwise_cons] at hcons
  have hjmem : j ∈ as ++ e :: bs := hsplit ▸ List.mem_finRange j
  rw [List.mem_append, List.mem_cons] at hjmem
  rcases hjmem with hjas | hje | hjbs
  · simpa using has j hjas
  · exact absurd hje (ne_of_lt hj)
  · exact absurd (hcons.1 j hjbs) (not_lt_of_gt hj)

/-- C7: `nightcap_chain_get_unqueued_event` returns `NULL` exactly when every one
of the 16 slots has `queued` set; a returned slot has `queued` clear and every
lower-index slot has `queued` set. (The function only reads the chain: it has
no chain result.) -/
theorem get_unqueued_event_spec (chain : nightcap_chain_t) :
    (nightcap_chain_get_unqueued_event chain = none ↔
      ∀ i : Fin NIGHTCAP_MAX_EVENTS, (chain.events i).queued = true) ∧
    (∀ e, nightcap_chain_get_unqueued_event chain = some e →
      (chain.events e).queued = false ∧ ∀ j, j < e → (chain.events j).queued = true) :=
  ⟨get_unqueued_event_eq_none chain, get_unqueued_event_eq_some chain⟩

/-! ### Pool stores and `next` walks -/

theorem pool_set_same (events : Fin NIGHTCAP_MAX_EVENTS → nightcap_event_t)
    (i : Fin NIGHTCAP_MAX_EVENTS) (e : nightcap_event_t) : pool_set events i e i = e := by
  simp [pool_set]

theorem pool_set_other (events : Fin NIGHTCAP_MAX_EVENTS → nightcap_event_t)
    {i j : Fin NIGHTCAP_MAX_EVENTS} (e : nightcap_event_t) (h : j ≠ i) :
    pool_set events i e j = events j := by
  simp [pool_set, h]

theorem Linked_congr {ev ev' : Fin NIGHTCAP_MAX_EVENTS → nightcap_event_t} :
    ∀ (l : List (Fin NIGHTCAP_MAX_EVENTS)) (p : Option (Fin NIGHTCAP_MAX_EVENTS)),
      (∀ i ∈ l, (ev' i).next = (ev i).next) → Linked ev p l → Linked ev' p l
  | [], _, _, h => h
  | i :: l, _, hagree, h => by
    refine ⟨h.1, ?_⟩
    rw [hagree i (List.mem_cons_self i l)]
    exact Linked_congr l _ (fun j hj => hagree j (List.mem_cons_of_mem i hj)) h.2

theorem Linked_unique {ev : Fin NIGHTCAP_MAX_EVENTS → nightcap_event_t} :
    ∀ (l l' : List (Fin NIGHTCAP_MAX_EVENTS)) (p : Option (Fin NIGHTCAP_MAX_EVENTS)),
      Linked ev p l → Linked ev p l' → l = l'
  | [], [], _, _, _ => rfl
  | [], j :: l', p, h, h' => by
    have h1 : p = none := h
    have h2 : p = some j := h'.1
    rw [h1] at h2
    cases h2
  | i :: l, [], p, h, h' => by
    have h1 : p = none := h'
    have h2 : p = some i := h.1
    rw [h1] at h2
    cases h2
  | i :: l, j :: l', p, h, h' => by
    have h1 : p = some i := h.1
    have h2 : p = some j := h'.1
    rw [h1] at h2
    have hij : i = j := Option.some.inj h2
    subst hij
    rw [Linked_unique l l' _ h.2 h'.2]

theorem Linked_suffix {ev : Fin NIGHTCAP_MAX_EVENTS → nightcap_event_t} :
    ∀ (a : List (Fin NIGHTCAP_MAX_EVENTS)) (i : Fin NIGHTCAP_MAX_EVENTS)
      (b : List (Fin NIGHTCAP_MAX_EVENTS)) (p : Option (Fin NIGHTCAP_MAX_EVENTS)),
      Linked ev p (a ++ i :: b) → Linked ev (ev i).next b
  | [], _, _, _, h => h.2
  | _ :: a, i, b, _, h => Linked_suffix a i b _ h.2

theorem Linked_nodup {ev : Fin NIGHTCAP_MAX_EVENTS → nightcap_event_t} :
    ∀ (l : List (Fin NIGHTCAP_MAX_EVENTS)) (p : Option (Fin NIGHTCAP_MAX_EVENTS)),
      Linked ev p l → l.Nodup
  | [], _, _ => List.nodup_nil
  | i :: l, _, h => by
    rw [List.nodup_cons]
    refine ⟨?_, Linked_nodup l _ h.2⟩
    intro hmem
    obtain ⟨a, b, hab⟩ := List.append_of_mem hmem
    have h2 : Linked ev (ev i).next (a ++ i :: b) := hab ▸ h.2
    have h3 : Linked ev (ev i).next b := Linked_suffix a i b _ h2
    have h4 := Linked_unique _ _ _ h2 h3
    have h5 := congrArg List.length h4
    simp at h5
    omega

theorem Linked_length_le {ev : Fin NIGHTCAP_MAX_EVENTS → nightcap_event_t}
    (l : List (Fin NIGHTCAP_MAX_EVENTS)) (p : Option (Fin NIGHTCAP_MAX_EVENTS))
    (h : Linked ev p l) : l.length ≤ NIGHTCAP_MAX_EVENTS := by
  have h1 := List.Nodup.length_le_card (Linked_nodup l p h)
  simpa using h1

theorem chain_walk_iff {ev : Fin NIGHTCAP_MAX_EVENTS → nightcap_event_t} :
    ∀ (n : Nat) (p : Option (Fin NIGHTCAP_MAX_EVENTS)) (l : List (Fin NIGHTCAP_MAX_EVENTS)),
      chain_walk ev n p = some l ↔ Linked ev p l ∧ l.length ≤ n := by
  intro n
  induction n with
  | zero =>
    intro p l
    cases p with
    | none =>
      cases l with
      | nil => simp [chain_walk, Linked]
      | cons i l => simp [chain_walk, Linked]
    | some j =>
      cases l with
      | nil => simp [chain_walk, Linked]
      | cons i l => simp [chain_walk, Linked]
  | succ n ih =>
    intro p l
    cases p with
    | none =>
      cases l with
      | nil => simp [chain_walk, Linked]
      | cons i l => simp [chain_walk, Linked]
    | some j =>
      cases l with
      | nil => simp [chain_walk, Linked]
      | cons i l =>
        simp only [chain_walk, Linked, Option.map_eq_some', List.cons.injEq, List.length_cons,
          Option.some.injEq, Nat.add_le_add_iff_right]
        constructor
        · rintro ⟨l', hw, hji, hl⟩
          subst hji hl
          have := (ih _ _).1 hw
          exact ⟨⟨rfl, this.1⟩, this.2⟩
        · rintro ⟨⟨hji, hlk⟩, hlen⟩
          subst hji
          exact ⟨l, (ih _ _).2 ⟨hlk, hlen⟩, rfl, rfl⟩

theorem chain_nodes_iff (chain : nightcap_chain_t) (l : List (Fin NIGHTCAP_MAX_EVENTS)) :
    chain_nodes chain = some l ↔ Linked chain.events chain.head l := by
  unfold chain_nodes
  rw [chain_walk_iff]
  exact ⟨fun h => h.1, fun h => ⟨h, Linked_length_le l _ h⟩⟩

/-! ### Insertion: the pointer code against its list image -/

theorem queue_loop_spec (e : Fin NIGHTCAP_MAX_EVENTS) :
    ∀ (l : List (Fin NIGHTCAP_MAX_EVENTS)) (tp : Fin NIGHTCAP_MAX_EVENTS)
      (ev : Fin NIGHTCAP_MAX_EVENTS → nightcap_event_t) (fuel : Nat),
      Linked ev (some tp) (tp :: l) → e ∉ tp :: l → (ev e).next = none →
      (tp :: l).length ≤ fuel →
      ∃ ev', nightcap_chain_queue_loop e fuel ev tp = some ev' ∧
        Linked ev' (some tp) (list_queue_loop (fun i => (ev i).time) e (tp :: l)) ∧
        (∀ i, ∃ nx, ev' i = { ev i with next := nx }) ∧
        (∀ i, i ∉ tp :: l → i ≠ e → ev' i = ev i) := by
  intro l
  induction l with
  | nil =>
    intro tp ev fuel hlink hmem hnone hfuel
    have hnext : (ev tp).next = none := hlink.2
    have hne : e ≠ tp := fun h => hmem (h ▸ List.mem_cons_self _ _)
    obtain ⟨f, rfl⟩ : ∃ f, fuel = f + 1 := ⟨fuel - 1, by simp at hfuel; omega⟩
    refine ⟨pool_set ev tp { ev tp with next := some e }, ?_, ?_, ?_, ?_⟩
    · simp [nightcap_chain_queue_loop, hnext]
    · refine ⟨rfl, ?_, ?_⟩
      · rw [pool_set_same]
      · show (pool_set ev tp { ev tp with next := some e } e).next = none
        rw [pool_set_other _ _ hne]
        exact hnone
    · intro i
      by_cases hi : i = tp
      · subst hi
        exact ⟨some e, by rw [pool_set_same]⟩
      · exact ⟨(ev i).next, by rw [pool_set_other _ _ hi]⟩
    · intro i hi _
      have : i ≠ tp := fun h => hi (h ▸ List.mem_cons_self _ _)
      rw [pool_set_other _ _ this]
  | cons nxt rest ih =>
    intro tp ev fuel hlink hmem hnone hfuel
    have hnext : (ev tp).next = some nxt := hlink.2.1
    have hlink2 : Linked ev (some nxt) (nxt :: rest) := by
      rw [← hnext]
      exact hlink.2
    have hnodup := Linked_nodup _ _ hlink
    have hne : e ≠ tp := fun h => hmem (h ▸ List.mem_cons_self _ _)
    have hmem' : e ∉ nxt :: rest := fun h => hmem (List.mem_cons_of_mem _ h)
    have htp : tp ∉ nxt :: rest := (List.nodup_cons.1 hnodup).1
    obtain ⟨f, rfl⟩ : ∃ f, fuel = f + 1 := ⟨fuel - 1, by simp at hfuel; omega⟩
    by_cases hc : (ev e).time > (ev tp).time ∧ (ev e).time < (ev nxt).time
    · refine ⟨pool_set (pool_set ev e { ev e with next := some nxt }) tp
          { pool_set ev e { ev e with next := some nxt } tp with next := some e }, ?_, ?_, ?_, ?_⟩
      · simp [nightcap_chain_queue_loop, hnext, hc]
      · have hl : list_queue_loop (fun i => (ev i).time) e (tp :: nxt :: rest)
            = tp :: e :: nxt :: rest := by simp [list_queue_loop, hc]
        rw [hl]
        refine ⟨rfl, ?_, ?_⟩
        · rw [pool_set_same]
        · rw [pool_set_other _ _ hne, pool_set_same]
          refine Linked_congr (nxt :: rest) _ ?_ hlink2
          intro i hi
          have h1 : i ≠ tp := fun h => htp (h ▸ hi)
          have h2 : i ≠ e := fun h => hmem' (h ▸ hi)
          rw [pool_set_other _ _ h1, pool_set_other _ _ h2]
      · intro i
        by_cases hi : i = tp
        · subst hi
          refine ⟨some e, ?_⟩
          rw [pool_set_same, pool_set_other _ _ (Ne.symm hne)]
        · by_cases hie : i = e
          · subst hie
            exact ⟨some nxt, by rw [pool_set_other _ _ hi, pool_set_same]⟩
          · exact ⟨(ev i).next, by rw [pool_set_other _ _ hi, pool_set_other _ _ hie]⟩
      · intro i hi hie
        have : i ≠ tp := fun h => hi (h ▸ List.mem_cons_self _ _)
        rw [pool_set_other _ _ this, pool_set_other _ _ hie]
    · have hlen : (nxt :: rest).length ≤ f := by simp at hfuel ⊢; omega
      obtain ⟨ev', hrun, hlk, hframe, hout⟩ := ih nxt ev f hlink2 hmem' hnone hlen
      refine ⟨ev', ?_, ?_, hframe, ?_⟩
      · simp [nightcap_chain_queue_loop, hnext, hc, hrun]
      · have hl : list_queue_loop (fun i => (ev i).time) e (tp :: nxt :: rest)
            = tp :: list_queue_loop (fun i => (ev i).time) e (nxt :: rest) := by
          simp [list_queue_loop, hc]
        rw [hl]
        refine ⟨rfl, ?_⟩
        rw [hout tp htp (Ne.symm hne), hnext]
        exact hlk
      · intro i hi hie
        exact hout i (fun h => hi (List.mem_cons_of_mem _ h)) hie

theorem chain_queue_spec (fuel : Nat) (chain : nightcap_chain_t) (e : Fin NIGHTCAP_MAX_EVENTS)
    (l : List (Fin NIGHTCAP_MAX_EVENTS)) (hlink : Linked chain.events chain.head l)
    (hmem : e ∉ l) (hnone : (chain.events e).next = none) (hfuel : l.length ≤ fuel) :
    ∃ c', nightcap_chain_queue fuel chain e = some c' ∧
      Linked c'.events c'.head (list_queue (fun i => (chain.events i).time) e l) ∧
      (∀ i, ∃ nx, c'.events i = { chain.events i with next := nx }) ∧
      c'._mut_flag = true := by
  cases l with
  | nil =>
    have hhead : chain.head = none := hlink
    refine ⟨{ _mut_flag := true, head := some e,
              events := pool_set chain.events e { chain.events e with next := none } },
      by simp only [nightcap_chain_queue, hhead], ?_, ?_, rfl⟩
    · refine ⟨rfl, ?_⟩
      show (pool_set chain.events e { chain.events e with next := none } e).next = none
      rw [pool_set_same]
    · intro i
      by_cases hi : i = e
      · subst hi
        exact ⟨none, by dsimp only; rw [pool_set_same]⟩
      · exact ⟨(chain.events i).next, by dsimp only; rw [pool_set_other _ _ hi]⟩
  | cons h rest =>
    have hhead : chain.head = some h := hlink.1
    have hlink1 : Linked chain.events (some h) (h :: rest) := hhead ▸ hlink
    by_cases hc : (chain.events e).time < (chain.events h).time
    · refine ⟨{ _mut_flag := true, head := some e,
                events := pool_set chain.events e { chain.events e with next := some h } },
        by simp only [nightcap_chain_queue, hhead, hc, if_true], ?_, ?_, rfl⟩
      · have hl : list_queue (fun i => (chain.events i).time) e (h :: rest) = e :: h :: rest := by
          simp [list_queue, hc]
        rw [hl]
        refine ⟨rfl, ?_⟩
        show Linked _ (pool_set chain.events e { chain.events e with next := some h } e).next _
        rw [pool_set_same]
        refine Linked_congr (h :: rest) _ ?_ hlink1
        intro i hi
        have h2 : i ≠ e := fun h => hmem (h ▸ hi)
        dsimp only
        rw [pool_set_other _ _ h2]
      · intro i
        by_cases hi : i = e
        · subst hi
          exact ⟨some h, by dsimp only; rw [pool_set_same]⟩
        · exact ⟨(chain.events i).next, by dsimp only; rw [pool_set_other _ _ hi]⟩
    · obtain ⟨ev', hrun, hlk, hframe, _⟩ :=
        queue_loop_spec e rest h chain.events fuel hlink1 hmem hnone hfuel
      refine ⟨{ chain with events := ev', _mut_flag := true }, ?_, ?_, hframe, rfl⟩
      · simp only [nightcap_chain_queue, hhead, hc, if_false, hrun, Option.map_some']
      · have hl : list_queue (fun i => (chain.events i).time) e (h :: rest)
            = list_queue_loop (fun i => (chain.events i).time) e (h :: rest) := by
          simp [list_queue, hc]
        rw [hl]
        show Linked ev' chain.head _
        rw [hhead]
        exact hlk

theorem schedule_spec (fuel : Nat) (chain : nightcap_chain_t) (t cb : Nat) (rep : Bool)
    (e : Fin NIGHTCAP_MAX_EVENTS) (l : List (Fin NIGHTCAP_MAX_EVENTS))
    (hfree : nightcap_chain_get_unqueued_event chain = some e)
    (hlink : Linked chain.events chain.head l)
    (hq : ∀ i ∈ l, (chain.events i).queued = true) (hfuel : l.length ≤ fuel) :
    ∃ c', nightcap_schedule fuel chain t cb rep = some (c', true) ∧
      e ∉ l ∧
      Linked c'.events c'.head (list_queue (fun i => (c'.events i).time) e l) ∧
      (∀ i, i ≠ e → ∃ nx, c'.events i = { chain.events i with next := nx }) ∧
      (∃ nx, c'.events e = { nightcap_event_init (chain.events e) t cb rep with next := nx }) ∧
      c'._mut_flag = true := by
  have hef : (chain.events e).queued = false := (get_unqueued_event_eq_some chain e hfree).1
  have hmem : e ∉ l := by
    intro h
    have := hq e h
    rw [hef] at this
    cases this
  let evt1 := nightcap_event_init (chain.events e) t cb rep
  let chain1 : nightcap_chain_t := { chain with events := pool_set chain.events e evt1 }
  have hlink1 : Linked chain1.events chain1.head l := by
    refine Linked_congr l _ ?_ hlink
    intro i hi
    have h2 : i ≠ e := fun h => hmem (h ▸ hi)
    show (pool_set chain.events e _ i).next = _
    rw [pool_set_other _ _ h2]
  have hnone : (chain1.events e).next = none := by
    show (pool_set chain.events e _ e).next = none
    rw [pool_set_same]
    rfl
  obtain ⟨c', hrun, hlk, hframe, hmut⟩ := chain_queue_spec fuel chain1 e l hlink1 hmem hnone hfuel
  have htm : (fun i => (chain1.events i).time) = (fun i => (c'.events i).time) := by
    funext i
    obtain ⟨nx, hnx⟩ := hframe i
    rw [hnx]
  refine ⟨c', ?_, hmem, ?_, ?_, ?_, hmut⟩
  · simp only [nightcap_schedule, hfree]
    show Option.map _ (nightcap_chain_queue fuel chain1 e) = _
    rw [hrun]
    rfl
  · rw [← htm]
    exact hlk
  · intro i hi
    obtain ⟨nx, hnx⟩ := hframe i
    refine ⟨nx, ?_⟩
    rw [hnx]
    show ({ pool_set chain.events e _ i with next := nx } : nightcap_event_t) = _
    rw [pool_set_other _ _ hi]
  · obtain ⟨nx, hnx⟩ := hframe e
    refine ⟨nx, ?_⟩
    rw [hnx]
    show ({ pool_set chain.events e _ e with next := nx } : nightcap_event_t) = _
    rw [pool_set_same]

/-! ### Insertion on lists: what is kept when times tie -/

theorem list_queue_loop_cons_cons (tm : Fin NIGHTCAP_MAX_EVENTS → Nat)
    (e tp nxt : Fin NIGHTCAP_MAX_EVENTS) (rest : List (Fin NIGHTCAP_MAX_EVENTS)) :
    list_queue_loop tm e (tp :: nxt :: rest) =
      if tm e > tm tp ∧ tm e < tm nxt then tp :: e :: nxt :: rest
      else tp :: list_queue_loop tm e (nxt :: rest) := rfl

theorem mem_list_queue_loop (tm : Fin NIGHTCAP_MAX_EVENTS → Nat) (e x : Fin NIGHTCAP_MAX_EVENTS) :
    ∀ l : List (Fin NIGHTCAP_MAX_EVENTS), x ∈ list_queue_loop tm e l ↔ x = e ∨ x ∈ l
  | [] => by simp [list_queue_loop]
  | [tp] => by
    simp only [list_queue_loop, List.mem_cons, List.mem_singleton, List.not_mem_nil, or_false]
    exact or_comm
  | tp :: nxt :: rest => by
    rw [list_queue_loop_cons_cons]
    by_cases hc : tm e > tm tp ∧ tm e < tm nxt
    · rw [if_pos hc]
      simp only [List.mem_cons]
      tauto
    · rw [if_neg hc, List.mem_cons, mem_list_queue_loop tm e x (nxt :: rest)]
      simp only [List.mem_cons]
      tauto

theorem list_queue_loop_head (tm : Fin NIGHTCAP_MAX_EVENTS → Nat) (e tp : Fin NIGHTCAP_MAX_EVENTS)
    (l : List (Fin NIGHTCAP_MAX_EVENTS)) :
    ∃ l', list_queue_loop tm e (tp :: l) = tp :: l' ∧ ∀ x ∈ l', x = e ∨ x ∈ l := by
  cases l with
  | nil => exact ⟨[e], rfl, fun x hx => Or.inl (List.mem_singleton.1 hx)⟩
  | cons nxt rest =>
    rw [list_queue_loop_cons_cons]
    by_cases hc : tm e > tm tp ∧ tm e < tm nxt
    · rw [if_pos hc]
      exact ⟨e :: nxt :: rest, rfl, fun x hx => List.mem_cons.1 hx⟩
    · rw [if_neg hc]
      exact ⟨list_queue_loop tm e (nxt :: rest), rfl,
        fun x hx => (mem_list_queue_loop tm e x (nxt :: rest)).1 hx⟩

theorem NoGap_cons_cons (tm : Fin NIGHTCAP_MAX_EVENTS → Nat) (a b : Fin NIGHTCAP_MAX_EVENTS)
    (rest : List (Fin NIGHTCAP_MAX_EVENTS)) :
    NoGap tm (a :: b :: rest) ↔
      (∀ x ∈ rest, ¬ (tm a < tm x ∧ tm x < tm b)) ∧ NoGap tm (b :: rest) := Iff.rfl

theorem NoGap_list_queue_loop (tm : Fin NIGHTCAP_MAX_EVENTS → Nat) (e : Fin NIGHTCAP_MAX_EVENTS) :
    ∀ l : List (Fin NIGHTCAP_MAX_EVENTS), NoGap tm l → NoGap tm (list_queue_loop tm e l)
  | [], _ => trivial
  | [tp], _ => ⟨fun _ hx => absurd hx (List.not_mem_nil _), trivial⟩
  | tp :: nxt :: rest, h => by
    rw [NoGap_cons_cons] at h
    rw [list_queue_loop_cons_cons]
    by_cases hc : tm e > tm tp ∧ tm e < tm nxt
    · rw [if_pos hc, NoGap_cons_cons, NoGap_cons_cons]
      refine ⟨?_, ?_, h.2⟩
      · intro x hx hcon
        rw [List.mem_cons] at hx
        rcases hx with hx | hx
        · subst hx
          omega
        · have := h.1 x hx
          omega
      · intro x hx hcon
        have := h.1 x hx
        omega
    · rw [if_neg hc]
      have ih := NoGap_list_queue_loop tm e (nxt :: rest) h.2
      obtain ⟨l', hl', hmem⟩ := list_queue_loop_head tm e nxt rest
      rw [hl'] at ih ⊢
      rw [NoGap_cons_cons]
      refine ⟨?_, ih⟩
      intro x hx hcon
      rcases hmem x hx with hxe | hxr
      · subst hxe
        omega
      · exact h.1 x hxr hcon

theorem mem_list_queue (tm : Fin NIGHTCAP_MAX_EVENTS → Nat) (e x : Fin NIGHTCAP_MAX_EVENTS)
    (l : List (Fin NIGHTCAP_MAX_EVENTS)) : x ∈ list_queue tm e l ↔ x = e ∨ x ∈ l := by
  cases l with
  | nil => simp [list_queue]
  | cons h rest =>
    by_cases hc : tm e < tm h
    · simp [list_queue, hc]
    · simp only [list_queue, hc, if_false]
      exact mem_list_queue_loop tm e x (h :: rest)

theorem HeadMin_list_queue (tm : Fin NIGHTCAP_MAX_EVENTS → Nat) (e : Fin NIGHTCAP_MAX_EVENTS)
    (l : List (Fin NIGHTCAP_MAX_EVENTS)) (h : HeadMin tm l) : HeadMin tm (list_queue tm e l) := by
  cases l with
  | nil => exact fun _ hx => absurd hx (List.not_mem_nil _)
  | cons hd rest =>
    have h' : ∀ x ∈ rest, tm hd ≤ tm x := h
    by_cases hc : tm e < tm hd
    · simp only [list_queue, hc, if_true]
      intro x hx
      rw [List.mem_cons] at hx
      rcases hx with hx | hx
      · subst hx
        omega
      · have := h' x hx
        omega
    · simp only [list_queue, hc, if_false]
      obtain ⟨l', hl', hmem⟩ := list_queue_loop_head tm e hd rest
      rw [hl']
      intro x hx
      rcases hmem x hx with hxe | hxr
      · subst hxe
        omega
      · exact h' x hxr

theorem NoGap_list_queue (tm : Fin NIGHTCAP_MAX_EVENTS → Nat) (e : Fin NIGHTCAP_MAX_EVENTS)
    (l : List (Fin NIGHTCAP_MAX_EVENTS)) (hmin : HeadMin tm l) (h : NoGap tm l) :
    NoGap tm (list_queue tm e l) := by
  cases l with
  | nil => trivial
  | cons hd rest =>
    have hmin' : ∀ x ∈ rest, tm hd ≤ tm x := hmin
    by_cases hc : tm e < tm hd
    · simp only [list_queue, hc, if_true]
      rw [NoGap_cons_cons]
      refine ⟨?_, h⟩
      intro x hx hcon
      have := hmin' x hx
      omega
    · simp only [list_queue, hc, if_false]
      exact NoGap_list_queue_loop tm e (hd :: rest) h

theorem list_queue_loop_split (tm : Fin NIGHTCAP_MAX_EVENTS → Nat) (e : Fin NIGHTCAP_MAX_EVENTS) :
    ∀ (l : List (Fin NIGHTCAP_MAX_EVENTS)) (tp : Fin NIGHTCAP_MAX_EVENTS), NoGap tm (tp :: l) →
      ∃ pre post, tp :: l = pre ++ post ∧ list_queue_loop tm e (tp :: l) = pre ++ e :: post ∧
        ∀ x ∈ post, tm x ≠ tm e
  | [], tp, _ => ⟨[tp], [], rfl, rfl, fun _ hx => absurd hx (List.not_mem_nil _)⟩
  | nxt :: rest, tp, h => by
    rw [NoGap_cons_cons] at h
    rw [list_queue_loop_cons_cons]
    by_cases hc : tm e > tm tp ∧ tm e < tm nxt
    · rw [if_pos hc]
      refine ⟨[tp], nxt :: rest, rfl, rfl, ?_⟩
      intro x hx
      rw [List.mem_cons] at hx
      rcases hx with hx | hx
      · subst hx
        omega
      · have := h.1 x hx
        omega
    · rw [if_neg hc]
      obtain ⟨pre, post, h1, h2, h3⟩ := list_queue_loop_split tm e rest nxt h.2
      exact ⟨tp :: pre, post, by rw [h1]; rfl, by rw [h2]; rfl, h3⟩

theorem list_queue_split (tm : Fin NIGHTCAP_MAX_EVENTS → Nat) (e : Fin NIGHTCAP_MAX_EVENTS)
    (l : List (Fin NIGHTCAP_MAX_EVENTS)) (hmin : HeadMin tm l) (h : NoGap tm l) :
    ∃ pre post, l = pre ++ post ∧ list_queue tm e l = pre ++ e :: post ∧
      ∀ x ∈ post, tm x ≠ tm e := by
  cases l with
  | nil => exact ⟨[], [], rfl, rfl, fun _ hx => absurd hx (List.not_mem_nil _)⟩
  | cons hd rest =>
    have hmin' : ∀ x ∈ rest, tm hd ≤ tm x := hmin
    by_cases hc : tm e < tm hd
    · refine ⟨[], hd :: rest, rfl, by simp [list_queue, hc], ?_⟩
      intro x hx
      rw [List.mem_cons] at hx
      rcases hx with hx | hx
      · subst hx
        omega
      · have := hmin' x hx
        omega
    · simp only [list_queue, hc, if_false]
      exact list_queue_loop_split tm e rest hd h

theorem HeadMin_congr {tm tm' : Fin NIGHTCAP_MAX_EVENTS → Nat}
    (l : List (Fin NIGHTCAP_MAX_EVENTS)) (hagree : ∀ i ∈ l, tm' i = tm i) (h : HeadMin tm l) :
    HeadMin tm' l := by
  cases l with
  | nil => trivial
  | cons hd rest =>
    intro x hx
    rw [hagree hd (List.mem_cons_self _ _), hagree x (List.mem_cons_of_mem _ hx)]
    exact h x hx

theorem NoGap_congr {tm tm' : Fin NIGHTCAP_MAX_EVENTS → Nat} :
    ∀ (l : List (Fin NIGHTCAP_MAX_EVENTS)), (∀ i ∈ l, tm' i = tm i) → NoGap tm l → NoGap tm' l
  | [], _, _ => trivial
  | [_], _, _ => trivial
  | a :: b :: rest, hagree, h => by
    rw [NoGap_cons_cons] at h ⊢
    refine ⟨?_, NoGap_congr (b :: rest) (fun i hi => hagree i (List.mem_cons_of_mem _ hi)) h.2⟩
    intro x hx
    rw [hagree a (List.mem_cons_self _ _), hagree b (List.mem_cons_of_mem _ (List.mem_cons_self _ _)),
      hagree x (List.mem_cons_of_mem _ (List.mem_cons_of_mem _ hx))]
    exact h.1 x hx

/-! ### Chains built by `nightcap_schedule` alone -/

theorem event_with_next_time (a : nightcap_event_t) (nx : Option (Fin NIGHTCAP_MAX_EVENTS)) :
    ({ a with next := nx } : nightcap_event_t).time = a.time := rfl

theorem event_with_next_queued (a : nightcap_event_t) (nx : Option (Fin NIGHTCAP_MAX_EVENTS)) :
    ({ a with next := nx } : nightcap_event_t).queued = a.queued := rfl

theorem ScheduleInv_init : ScheduleInv nightcap_chain_init [] :=
  ⟨rfl, fun _ hx => absurd hx (List.not_mem_nil _), trivial, trivial⟩

theorem ScheduleInv_schedule (fuel : Nat) (hfuel : NIGHTCAP_MAX_EVENTS ≤ fuel)
    (chain : nightcap_chain_t) (l : List (Fin NIGHTCAP_MAX_EVENTS)) (hinv : ScheduleInv chain l)
    (t cb : Nat) (rep : Bool) :
    ∃ c' l' ok, nightcap_schedule fuel chain t cb rep = some (c', ok) ∧ ScheduleInv c' l' := by
  obtain ⟨hlink, hq, hmin, hgap⟩ := hinv
  cases hfree : nightcap_chain_get_unqueued_event chain with
  | none =>
    exact ⟨chain, l, false, by simp only [nightcap_schedule, hfree], hlink, hq, hmin, hgap⟩
  | some e =>
    have hlen : l.length ≤ fuel := le_trans (Linked_length_le l _ hlink) hfuel
    obtain ⟨c', hrun, hmem, hlk, hframe, hnew, _⟩ :=
      schedule_spec fuel chain t cb rep e l hfree hlink hq hlen
    have hagree : ∀ i ∈ l, (c'.events i).time = (chain.events i).time := by
      intro i hi
      obtain ⟨nx, hnx⟩ := hframe i (fun h => hmem (h ▸ hi))
      rw [hnx]
    refine ⟨c', _, true, hrun, hlk, ?_, ?_, ?_⟩
    · intro i hi
      rw [mem_list_queue] at hi
      rcases hi with hi | hi
      · subst hi
        obtain ⟨nx, hnx⟩ := hnew
        rw [hnx]
        rfl
      · obtain ⟨nx, hnx⟩ := hframe i (fun h => hmem (h ▸ hi))
        rw [hnx, event_with_next_queued]
        exact hq i hi
    · exact HeadMin_list_queue _ e l (HeadMin_congr l hagree hmin)
    · exact NoGap_list_queue _ e l (HeadMin_congr l hagree hmin) (NoGap_congr l hagree hgap)

theorem ScheduleInv_schedule_all (fuel : Nat) (hfuel : NIGHTCAP_MAX_EVENTS ≤ fuel) :
    ∀ (calls : List (Nat × Nat × Bool)) (chain : nightcap_chain_t)
      (l : List (Fin NIGHTCAP_MAX_EVENTS)), ScheduleInv chain l →
      ∃ c' l', schedule_all fuel chain calls = some c' ∧ ScheduleInv c' l'
  | [], chain, l, hinv => ⟨chain, l, rfl, hinv⟩
  | (t, cb, rep) :: rest, chain, l, hinv => by
    obtain ⟨c1, l1, ok, hrun, hinv1⟩ := ScheduleInv_schedule fuel hfuel chain l hinv t cb rep
    obtain ⟨c', l', hrest, hinv'⟩ := ScheduleInv_schedule_all fuel hfuel rest c1 l1 hinv1
    exact ⟨c', l', by simp only [schedule_all, hrun, hrest], hinv'⟩

/-! ### Draining with callbacks that leave the chain alone -/

theorem dequeue_inert_spec :
    ∀ (l : List (Fin NIGHTCAP_MAX_EVENTS)) (chain : nightcap_chain_t) (fuel now : Nat),
      Linked chain.events chain.head l → l.length < fuel →
      ∃ c', nightcap_chain_dequeue run_inert fuel chain now =
          some (c', l.takeWhile (fun i => decide ((chain.events i).time ≤ now))) ∧
        Linked c'.events c'.head (l.dropWhile (fun i => decide ((chain.events i).time ≤ now))) ∧
        (∀ i, i ∉ l.takeWhile (fun i => decide ((chain.events i).time ≤ now)) →
          c'.events i = chain.events i) ∧
        (∀ i, i ∈ l.takeWhile (fun i => decide ((chain.events i).time ≤ now)) →
          c'.events i = { chain.events i with
            queued := (chain.events i).queued && (chain.events i).repeating }) := by
  intro l
  induction l with
  | nil =>
    intro chain fuel now hlink hfuel
    have hhead : chain.head = none := hlink
    obtain ⟨f, rfl⟩ : ∃ f, fuel = f + 1 := ⟨fuel - 1, by omega⟩
    refine ⟨chain, by simp only [nightcap_chain_dequeue, hhead, List.takeWhile_nil], ?_, ?_, ?_⟩
    · exact hlink
    · intro i _
      rfl
    · intro i hi
      exact absurd hi (List.not_mem_nil _)
  | cons h rest ih =>
    intro chain fuel now hlink hfuel
    have hhead : chain.head = some h := hlink.1
    have hrest : Linked chain.events (chain.events h).next rest := hlink.2
    have hnodup := Linked_nodup _ _ hlink
    have hnot : h ∉ rest := (List.nodup_cons.1 hnodup).1
    obtain ⟨f, rfl⟩ : ∃ f, fuel = f + 1 := ⟨fuel - 1, by omega⟩
    by_cases hc : (chain.events h).time ≤ now
    · let evt1 : nightcap_event_t :=
        { chain.events h with queued := (chain.events h).queued && (chain.events h).repeating }
      let chain3 : nightcap_chain_t :=
        { _mut_flag := false, head := (chain.events h).next,
          events := pool_set chain.events h evt1 }
      have hnext3 : ∀ i, (chain3.events i).next = (chain.events i).next := by
        intro i
        show (pool_set chain.events h evt1 i).next = _
        by_cases hi : i = h
        · subst hi
          rw [pool_set_same]
        · rw [pool_set_other _ _ hi]
      have htime3 : ∀ i, (chain3.events i).time = (chain.events i).time := by
        intro i
        show (pool_set chain.events h evt1 i).time = _
        by_cases hi : i = h
        · subst hi
          rw [pool_set_same]
        · rw [pool_set_other _ _ hi]
      have hlink3 : Linked chain3.events chain3.head rest :=
        Linked_congr rest _ (fun i _ => hnext3 i) hrest
      have hlen : rest.length < f := by simp at hfuel; omega
      obtain ⟨c', hrun, hlk, hout, hin⟩ := ih chain3 f now hlink3 hlen
      have hp : (fun i => decide ((chain3.events i).time ≤ now))
          = (fun i => decide ((chain.events i).time ≤ now)) := by
        funext i
        rw [htime3 i]
      rw [hp] at hrun hlk hout hin
      have htw : (h :: rest).takeWhile (fun i => decide ((chain.events i).time ≤ now))
          = h :: rest.takeWhile (fun i => decide ((chain.events i).time ≤ now)) := by
        simp [List.takeWhile_cons, hc]
      have hdw : (h :: rest).dropWhile (fun i => decide ((chain.events i).time ≤ now))
          = rest.dropWhile (fun i => decide ((chain.events i).time ≤ now)) := by
        simp [List.dropWhile_cons, hc]
      have hnotfired : h ∉ rest.takeWhile (fun i => decide ((chain.events i).time ≤ now)) :=
        fun hm => hnot (List.takeWhile_subset _ hm)
      rw [htw, hdw]
      refine ⟨c', ?_, hlk, ?_, ?_⟩
      · have hstep : nightcap_chain_dequeue run_inert (f + 1) chain now
            = (nightcap_chain_dequeue run_inert f chain3 now).map (fun r => (r.1, h :: r.2)) := by
          simp only [nightcap_chain_dequeue, hhead, ge_iff_le, hc, if_true, run_inert]
        rw [hstep, hrun]
        rfl
      · intro i hi
        rw [List.mem_cons, not_or] at hi
        rw [hout i hi.2]
        show pool_set chain.events h evt1 i = _
        rw [pool_set_other _ _ hi.1]
      · intro i hi
        rw [List.mem_cons] at hi
        rcases hi with hi | hi
        · subst hi
          rw [hout i hnotfired]
          show pool_set chain.events i evt1 i = _
          rw [pool_set_same]
        · have hne : i ≠ h := fun hh => hnotfired (hh ▸ hi)
          rw [hin i hi]
          show ({ pool_set chain.events h evt1 i with
            queued := (pool_set chain.events h evt1 i).queued
              && (pool_set chain.events h evt1 i).repeating } : nightcap_event_t) = _
          rw [pool_set_other _ _ hne]
    · have htw : (h :: rest).takeWhile (fun i => decide ((chain.events i).time ≤ now)) = [] := by
        simp [List.takeWhile_cons, hc]
      have hdw : (h :: rest).dropWhile (fun i => decide ((chain.events i).time ≤ now))
          = h :: rest := by
        simp [List.dropWhile_cons, hc]
      rw [htw, hdw]
      refine ⟨chain, ?_, hlink, fun _ _ => rfl, fun i hi => absurd hi (List.not_mem_nil _)⟩
      simp only [nightcap_chain_dequeue, hhead, ge_iff_le, hc, if_false]

theorem dropWhile_head_false {α : Type} (p : α → Bool) :
    ∀ (l : List α) (h : α) (t : List α), l.dropWhile p = h :: t → p h = false
  | [], _, _, hl => by simp at hl
  | a :: l, h, t, hl => by
    by_cases hp : p a = true
    · rw [List.dropWhile_cons, if_pos hp] at hl
      exact dropWhile_head_false p l h t hl
    · rw [List.dropWhile_cons, if_neg hp] at hl
      have : a = h := (List.cons.inj hl).1
      subst this
      simpa using hp

theorem sorted_takeWhile_dropWhile (tm : Fin NIGHTCAP_MAX_EVENTS → Nat) (now : Nat) :
    ∀ l : List (Fin NIGHTCAP_MAX_EVENTS), (l.map tm).Sorted (· ≤ ·) →
      l.takeWhile (fun i => decide (tm i ≤ now)) = l.filter (fun i => decide (tm i ≤ now)) ∧
      l.dropWhile (fun i => decide (tm i ≤ now)) = l.filter (fun i => decide (now < tm i))
  | [], _ => ⟨rfl, rfl⟩
  | a :: l, hs => by
    rw [List.map_cons] at hs
    have hs' : ∀ x ∈ l, tm a ≤ tm x := by
      intro x hx
      exact List.rel_of_sorted_cons hs (tm x) (List.mem_map_of_mem tm hx)
    have ih := sorted_takeWhile_dropWhile tm now l (List.Sorted.of_cons hs)
    by_cases hc : tm a ≤ now
    · have hn : ¬ now < tm a := by omega
      simp only [List.takeWhile_cons, List.dropWhile_cons, List.filter_cons, hc, hn,
        decide_True, decide_False, if_true, ih.1, ih.2]
      simp
    · have hn : now < tm a := by omega
      have h1 : l.filter (fun i => decide (tm i ≤ now)) = [] := by
        rw [List.filter_eq_nil_iff]
        intro x hx
        have := hs' x hx
        simp only [decide_eq_true_eq]
        omega
      have h2 : l.filter (fun i => decide (now < tm i)) = l := by
        rw [List.filter_eq_self]
        intro x hx
        have := hs' x hx
        simp only [decide_eq_true_eq]
        omega
      simp only [List.takeWhile_cons, List.dropWhile_cons, List.filter_cons, hc, hn,
        decide_True, decide_False, if_true, h1, h2]
      simp

/-! ### The claims about insertion and draining -/

/-- C1 (the code at the failing input): three `nightcap_schedule` calls with
times 50, 100, 50 on a fresh chain all return and leave the chain
`50, 100, 50` from `head`, which is not non-decreasing. -/
theorem schedule_tie_breaks_order :
    (schedule_all NIGHTCAP_MAX_EVENTS nightcap_chain_init
        [(50, 1, false), (100, 1, false), (50, 1, false)]).bind chain_times
      = some [50, 100, 50] ∧
    ¬ List.Sorted (· ≤ ·) [50, 100, 50] := by
  decide

/-- C2 (the code at the failing input): on the chain `slot 0 (time 50) → slot 1
(time 100)`, `nightcap_chain_queue` of the freshly initialised slot 2 with time
50 links it after slot 1, at the tail, although slot 1 has a strictly greater
time and slot 0 is the last node with time at most 50. -/
theorem queue_tie_appended_at_tail :
    chain_nodes (chain_of_calls [(50, 1, false), (100, 1, false)]) = some [0, 1] ∧
    chain_times (chain_of_calls [(50, 1, false), (100, 1, false)]) = some [50, 100] ∧
    ((chain_with_fresh_event (chain_of_calls [(50, 1, false), (100, 1, false)]) 2 50 1
        false).events 2).next = none ∧
    ((chain_with_fresh_event (chain_of_calls [(50, 1, false), (100, 1, false)]) 2 50 1
        false).events 2).time = 50 ∧
    (nightcap_chain_queue NIGHTCAP_MAX_EVENTS
        (chain_with_fresh_event (chain_of_calls [(50, 1, false), (100, 1, false)]) 2 50 1 false)
        2).bind chain_nodes = some [0, 1, 2] ∧
    (nightcap_chain_queue NIGHTCAP_MAX_EVENTS
        (chain_with_fresh_event (chain_of_calls [(50, 1, false), (100, 1, false)]) 2 50 1 false)
        2).bind chain_times = some [50, 100, 50] := by
  decide

/-- C3: on every chain built from `nightcap_chain_init` by `nightcap_schedule`
calls alone, one more `nightcap_schedule` that finds a free slot `e` returns
`true` and links `e` into the chain, leaving the other nodes in their order;
every node that already had the new event's time comes before `e`. -/
theorem schedule_tie_goes_after (fuel : Nat) (hfuel : NIGHTCAP_MAX_EVENTS ≤ fuel)
    (calls : List (Nat × Nat × Bool)) :
    ∃ c l, schedule_all fuel nightcap_chain_init calls = some c ∧ chain_nodes c = some l ∧
      ∀ (t cb : Nat) (rep : Bool) (e : Fin NIGHTCAP_MAX_EVENTS),
        nightcap_chain_get_unqueued_event c = some e →
        ∃ c' pre post, nightcap_schedule fuel c t cb rep = some (c', true) ∧
          l = pre ++ post ∧ chain_nodes c' = some (pre ++ e :: post) ∧
          (c'.events e).time = t ∧ (∀ i ∈ l, (c'.events i).time = (c.events i).time) ∧
          ∀ i ∈ l, (c.events i).time = t → i ∈ pre := by
  obtain ⟨c, l, hrun, hinv⟩ :=
    ScheduleInv_schedule_all fuel hfuel calls nightcap_chain_init [] ScheduleInv_init
  obtain ⟨hlink, hq, hmin, hgap⟩ := hinv
  refine ⟨c, l, hrun, (chain_nodes_iff c l).2 hlink, ?_⟩
  intro t cb rep e hfree
  have hlen : l.length ≤ fuel := le_trans (Linked_length_le l _ hlink) hfuel
  obtain ⟨c', hrun', hmem, hlk, hframe, hnew, _⟩ :=
    schedule_spec fuel c t cb rep e l hfree hlink hq hlen
  have hagree : ∀ i ∈ l, (c'.events i).time = (c.events i).time := by
    intro i hi
    obtain ⟨nx, hnx⟩ := hframe i (fun h => hmem (h ▸ hi))
    rw [hnx]
  have hte : (c'.events e).time = t := by
    obtain ⟨nx, hnx⟩ := hnew
    rw [hnx]
    rfl
  obtain ⟨pre, post, hsplit, hins, hpost⟩ :=
    list_queue_split (fun i => (c'.events i).time) e l
      (HeadMin_congr l hagree hmin) (NoGap_congr l hagree hgap)
  refine ⟨c', pre, post, hrun', hsplit, ?_, hte, hagree, ?_⟩
  · rw [chain_nodes_iff, ← hins]
    exact hlk
  · intro i hi hti
    have hi' : i ∈ pre ++ post := hsplit ▸ hi
    rw [List.mem_append] at hi'
    rcases hi' with hpre | hpo
    · exact hpre
    · exfalso
      apply hpost i hpo
      show (c'.events i).time = (c'.events e).time
      rw [hagree i hi, hti, hte]

/-- C3 on the chain left by schedules at 50 and 100. -/
theorem schedule_tie_goes_after_witness :
    NIGHTCAP_MAX_EVENTS ≤ 16 ∧
    ∃ c l, schedule_all 16 nightcap_chain_init [(50, 1, false), (100, 1, false)] = some c ∧
      chain_nodes c = some l ∧
      ∀ (t cb : Nat) (rep : Bool) (e : Fin NIGHTCAP_MAX_EVENTS),
        nightcap_chain_get_unqueued_event c = some e →
        ∃ c' pre post, nightcap_schedule 16 c t cb rep = some (c', true) ∧
          l = pre ++ post ∧ chain_nodes c' = some (pre ++ e :: post) ∧
          (c'.events e).time = t ∧ (∀ i ∈ l, (c'.events i).time = (c.events i).time) ∧
          ∀ i ∈ l, (c.events i).time = t → i ∈ pre :=
  ⟨by decide, schedule_tie_goes_after 16 (by decide) [(50, 1, false), (100, 1, false)]⟩

theorem dequeue_inert_time (chain c' : nightcap_chain_t) (fired : List (Fin NIGHTCAP_MAX_EVENTS))
    (hout : ∀ i, i ∉ fired → c'.events i = chain.events i)
    (hin : ∀ i, i ∈ fired → c'.events i = { chain.events i with
      queued := (chain.events i).queued && (chain.events i).repeating })
    (i : Fin NIGHTCAP_MAX_EVENTS) : (c'.events i).time = (chain.events i).time := by
  by_cases hi : i ∈ fired
  · rw [hin i hi]
  · rw [hout i hi]

/-- C4: on a chain whose `next` walk from `head` reaches `NULL` (nodes `l`) with
non-decreasing times, `nightcap_chain_dequeue(chain, now)` with callbacks that
leave the chain alone returns; it invokes the callbacks of exactly the nodes
with `time ≤ now`, each once, in chain order, and the chain afterwards is
exactly the nodes with `time > now`, in chain order, with every time unchanged. -/
theorem dequeue_fires_due_in_order (chain : nightcap_chain_t)
    (l : List (Fin NIGHTCAP_MAX_EVENTS)) (n fuel now : Nat)
    (hwalk : chain_walk chain.events n chain.head = some l)
    (hsorted : (l.map (fun i => (chain.events i).time)).Sorted (· ≤ ·))
    (hfuel : l.length < fuel) :
    ∃ c', nightcap_chain_dequeue run_inert fuel chain now
        = some (c', l.filter (fun i => decide ((chain.events i).time ≤ now))) ∧
      (l.filter (fun i => decide ((chain.events i).time ≤ now))).Nodup ∧
      chain_walk c'.events n c'.head
        = some (l.filter (fun i => decide (now < (chain.events i).time))) ∧
      ∀ i, (c'.events i).time = (chain.events i).time := by
  have hlink := (chain_walk_iff n _ l).1 hwalk
  obtain ⟨c', hrun, hlk, hout, hin⟩ := dequeue_inert_spec l chain fuel now hlink.1 hfuel
  obtain ⟨htw, hdw⟩ := sorted_takeWhile_dropWhile (fun i => (chain.events i).time) now l hsorted
  rw [htw] at hrun
  rw [hdw] at hlk
  refine ⟨c', hrun, (Linked_nodup l _ hlink.1).filter _, ?_, ?_⟩
  · rw [chain_walk_iff]
    exact ⟨hlk, le_trans (List.length_filter_le _ l) hlink.2⟩
  · intro i
    exact dequeue_inert_time chain c' _ hout hin i

/-- C4 on the chain left by scheduling A at 100 and B at 50, drained at 60; the
last part runs the whole scenario: the drain at 60 fires B only and leaves a
head with time 100, a further drain at 100 fires A and leaves `head = NULL`. -/
theorem dequeue_fires_due_in_order_witness :
    (chain_walk (chain_of_calls [(100, 1, false), (50, 2, false)]).events 16
        (chain_of_calls [(100, 1, false), (50, 2, false)]).head = some [1, 0] ∧
      (([1, 0] : List (Fin NIGHTCAP_MAX_EVENTS)).map
        (fun i => ((chain_of_calls [(100, 1, false), (50, 2, false)]).events i).time)).Sorted
          (· ≤ ·) ∧
      ([1, 0] : List (Fin NIGHTCAP_MAX_EVENTS)).length < 3) ∧
    (∃ c', nightcap_chain_dequeue run_inert 3 (chain_of_calls [(100, 1, false), (50, 2, false)]) 60
        = some (c', ([1, 0] : List (Fin NIGHTCAP_MAX_EVENTS)).filter (fun i => decide
            (((chain_of_calls [(100, 1, false), (50, 2, false)]).events i).time ≤ 60))) ∧
      (([1, 0] : List (Fin NIGHTCAP_MAX_EVENTS)).filter (fun i => decide
            (((chain_of_calls [(100, 1, false), (50, 2, false)]).events i).time ≤ 60))).Nodup ∧
      chain_walk c'.events 16 c'.head
        = some (([1, 0] : List (Fin NIGHTCAP_MAX_EVENTS)).filter (fun i => decide
            (60 < ((chain_of_calls [(100, 1, false), (50, 2, false)]).events i).time))) ∧
      ∀ i, (c'.events i).time
        = ((chain_of_calls [(100, 1, false), (50, 2, false)]).events i).time) ∧
    ((nightcap_chain_dequeue run_inert 3
        (chain_of_calls [(100, 1, false), (50, 2, false)]) 60).map
          (fun r => (r.2, r.1.head, chain_times r.1)) = some ([1], some 0, some [100]) ∧
      ((nightcap_chain_dequeue run_inert 3
        (chain_of_calls [(100, 1, false), (50, 2, false)]) 60).bind
          (fun r => nightcap_chain_dequeue run_inert 3 r.1 100)).map
            (fun r => (r.2, r.1.head)) = some ([0], none)) :=
  ⟨by decide,
   dequeue_fires_due_in_order (chain_of_calls [(100, 1, false), (50, 2, false)]) [1, 0] 16 3 60
     (by decide) (by decide) (by decide),
   by decide⟩

/-- C6: on a chain whose `next` walk from `head` reaches `NULL` (nodes `l`,
sorted or not), `nightcap_chain_dequeue(chain, now)` with callbacks that leave
the chain alone returns within `l.length + 1` tests of its loop condition,
having invoked at most `l.length` callbacks, and then `head` is `NULL` or
`head->time > now`. -/
theorem dequeue_terminates (chain : nightcap_chain_t) (l : List (Fin NIGHTCAP_MAX_EVENTS))
    (n fuel now : Nat) (hwalk : chain_walk chain.events n chain.head = some l)
    (hfuel : l.length < fuel) :
    ∃ c' fired, nightcap_chain_dequeue run_inert fuel chain now = some (c', fired) ∧
      fired.length ≤ l.length ∧
      (c'.head = none ∨ ∃ h, c'.head = some h ∧ now < (c'.events h).time) := by
  have hlink := (chain_walk_iff n _ l).1 hwalk
  obtain ⟨c', hrun, hlk, hout, hin⟩ := dequeue_inert_spec l chain fuel now hlink.1 hfuel
  refine ⟨c', _, hrun, (List.takeWhile_sublist _).length_le, ?_⟩
  cases hd : l.dropWhile (fun i => decide ((chain.events i).time ≤ now)) with
  | nil =>
    rw [hd] at hlk
    exact Or.inl hlk
  | cons h t =>
    rw [hd] at hlk
    refine Or.inr ⟨h, hlk.1, ?_⟩
    have hp := dropWhile_head_false _ l h t hd
    rw [dequeue_inert_time chain c' _ hout hin h]
    simpa using hp

/-- C6 on the unsorted chain `50, 100, 50`, drained at 60. -/
theorem dequeue_terminates_witness :
    (chain_walk (chain_of_calls [(50, 1, false), (100, 1, false), (50, 1, false)]).events 16
        (chain_of_calls [(50, 1, false), (100, 1, false), (50, 1, false)]).head
          = some [0, 1, 2] ∧
      ([0, 1, 2] : List (Fin NIGHTCAP_MAX_EVENTS)).length < 4) ∧
    ∃ c' fired, nightcap_chain_dequeue run_inert 4
        (chain_of_calls [(50, 1, false), (100, 1, false), (50, 1, false)]) 60
          = some (c', fired) ∧
      fired.length ≤ ([0, 1, 2] : List (Fin NIGHTCAP_MAX_EVENTS)).length ∧
      (c'.head = none ∨ ∃ h, c'.head = some h ∧ 60 < (c'.events h).time) :=
  ⟨by decide,
   dequeue_terminates (chain_of_calls [(50, 1, false), (100, 1, false), (50, 1, false)])
     [0, 1, 2] 16 4 60 (by decide) (by decide)⟩

/-! ### Capacity and return of `nightcap_schedule` -/

theorem queue_loop_returns (e : Fin NIGHTCAP_MAX_EVENTS) :
    ∀ (l : List (Fin NIGHTCAP_MAX_EVENTS)) (tp : Fin NIGHTCAP_MAX_EVENTS)
      (ev : Fin NIGHTCAP_MAX_EVENTS → nightcap_event_t) (fuel : Nat),
      Linked ev (some tp) (tp :: l) → (tp :: l).length ≤ fuel →
      ∃ ev', nightcap_chain_queue_loop e fuel ev tp = some ev' := by
  intro l
  induction l with
  | nil =>
    intro tp ev fuel hlink hfuel
    have hnext : (ev tp).next = none := hlink.2
    obtain ⟨f, rfl⟩ : ∃ f, fuel = f + 1 := ⟨fuel - 1, by simp at hfuel; omega⟩
    exact ⟨_, by simp only [nightcap_chain_queue_loop, hnext]; rfl⟩
  | cons nxt rest ih =>
    intro tp ev fuel hlink hfuel
    have hnext : (ev tp).next = some nxt := hlink.2.1
    have hlink2 : Linked ev (some nxt) (nxt :: rest) := by
      rw [← hnext]
      exact hlink.2
    obtain ⟨f, rfl⟩ : ∃ f, fuel = f + 1 := ⟨fuel - 1, by simp at hfuel; omega⟩
    by_cases hc : (ev e).time > (ev tp).time ∧ (ev e).time < (ev nxt).time
    · exact ⟨_, by simp only [nightcap_chain_queue_loop, hnext, hc, and_self, if_true]; rfl⟩
    · have hlen : (nxt :: rest).length ≤ f := by simp at hfuel ⊢; omega
      obtain ⟨ev', hrun⟩ := ih nxt ev f hlink2 hlen
      exact ⟨ev', by simp only [nightcap_chain_queue_loop, hnext, hc, if_false, hrun]⟩

theorem chain_queue_returns (fuel : Nat) (chain : nightcap_chain_t)
    (e : Fin NIGHTCAP_MAX_EVENTS) (l : List (Fin NIGHTCAP_MAX_EVENTS))
    (hlink : Linked chain.events chain.head l) (hfuel : l.length ≤ fuel) :
    ∃ c', nightcap_chain_queue fuel chain e = some c' := by
  cases l with
  | nil =>
    have hhead : chain.head = none := hlink
    exact ⟨_, by simp only [nightcap_chain_queue, hhead]; rfl⟩
  | cons h rest =>
    have hhead : chain.head = some h := hlink.1
    have hlink1 : Linked chain.events (some h) (h :: rest) := hhead ▸ hlink
    by_cases hc : (chain.events e).time < (chain.events h).time
    · exact ⟨_, by simp only [nightcap_chain_queue, hhead, hc, if_true]; rfl⟩
    · obtain ⟨ev', hrun⟩ := queue_loop_returns e rest h chain.events fuel hlink1 hfuel
      exact ⟨_, by simp only [nightcap_chain_queue, hhead, hc, if_false, hrun, Option.map_some']; rfl⟩

theorem Linked_cut (ev : Fin NIGHTCAP_MAX_EVENTS → nightcap_event_t)
    (e : Fin NIGHTCAP_MAX_EVENTS) (x : nightcap_event_t) (hx : x.next = none) :
    ∀ (l : List (Fin NIGHTCAP_MAX_EVENTS)) (p : Option (Fin NIGHTCAP_MAX_EVENTS)),
      Linked ev p l → ∃ l', Linked (pool_set ev e x) p l' ∧ l'.length ≤ l.length
  | [], _, h => ⟨[], h, le_refl _⟩
  | i :: l, p, h => by
    by_cases hi : i = e
    · subst hi
      refine ⟨[i], ⟨h.1, ?_⟩, by simp⟩
      show (pool_set ev i x i).next = none
      rw [pool_set_same]
      exact hx
    · obtain ⟨l', hl', hlen⟩ := Linked_cut ev e x hx l _ h.2
      refine ⟨i :: l', ⟨h.1, ?_⟩, by simp; omega⟩
      rw [pool_set_other _ _ hi]
      exact hl'

theorem queue_loop_self_cycle (e tp : Fin NIGHTCAP_MAX_EVENTS)
    (ev : Fin NIGHTCAP_MAX_EVENTS → nightcap_event_t) (hnext : (ev tp).next = some tp) :
    ∀ fuel, nightcap_chain_queue_loop e fuel ev tp = none
  | 0 => rfl
  | fuel + 1 => by
    have hc : ¬ ((ev e).time > (ev tp).time ∧ (ev e).time < (ev tp).time) := by omega
    simp only [nightcap_chain_queue_loop, hnext, hc, if_false]
    exact queue_loop_self_cycle e tp ev hnext fuel

theorem schedule_self_cycle (fuel : Nat) (chain : nightcap_chain_t) (t cb : Nat) (rep : Bool)
    (e h : Fin NIGHTCAP_MAX_EVENTS) (hfree : nightcap_chain_get_unqueued_event chain = some e)
    (hhead : chain.head = some h) (hnext : (chain.events h).next = some h) (hne : h ≠ e)
    (hge : (chain.events h).time ≤ t) :
    nightcap_schedule fuel chain t cb rep = none := by
  have h1 : (pool_set chain.events e (nightcap_event_init (chain.events e) t cb rep) h)
      = chain.events h := pool_set_other _ _ hne
  have h2 : (pool_set chain.events e (nightcap_event_init (chain.events e) t cb rep) e).time
      = t := by
    rw [pool_set_same]
    rfl
  have hc : ¬ (t < (chain.events h).time) := by omega
  simp only [nightcap_schedule, hfree, nightcap_chain_queue, hhead, h1, h2, hc, if_false]
  rw [queue_loop_self_cycle e h _ (by rw [h1]; exact hnext) fuel]
  rfl

/-- C8 (as stated) fails: `cyclic_chain` (reached by `nightcap_schedule` then
`nightcap_reschedule` of the queued slot) has slot 1 free, yet
`nightcap_schedule` at time 20 never returns on it, whatever the budget. -/
theorem schedule_hangs_on_cycle :
    (cyclic_chain.events 1).queued = false ∧ chain_nodes cyclic_chain = none ∧
    ∀ fuel, nightcap_schedule fuel cyclic_chain 20 1 false = none :=
  ⟨by decide, by decide, fun fuel =>
    schedule_self_cycle fuel cyclic_chain 20 1 false 1 0 (by decide) (by decide) (by decide)
      (by decide) (by decide)⟩

/-- C8 (amended): when all 16 slots have `queued` set, `nightcap_schedule`
returns `false` and the chain is unchanged; when some slot has `queued` clear
and the `next` walk from `head` reaches `NULL` (nodes `l`), it returns `true`
(within `l.length` tests of the insertion loop's condition). -/
theorem schedule_capacity (chain : nightcap_chain_t) (t cb : Nat) (rep : Bool) :
    ((∀ i, (chain.events i).queued = true) →
      ∀ fuel, nightcap_schedule fuel chain t cb rep = some (chain, false)) ∧
    (∀ (n fuel : Nat) (l : List (Fin NIGHTCAP_MAX_EVENTS)),
      (∃ i, (chain.events i).queued = false) →
      chain_walk chain.events n chain.head = some l → l.length ≤ fuel →
      ∃ c', nightcap_schedule fuel chain t cb rep = some (c', true)) := by
  constructor
  · intro hfull fuel
    have hnone := (get_unqueued_event_eq_none chain).2 hfull
    simp only [nightcap_schedule, hnone]
  · intro n fuel l hfree hwalk hfuel
    have hlink := ((chain_walk_iff n _ l).1 hwalk).1
    cases hget : nightcap_chain_get_unqueued_event chain with
    | none =>
      obtain ⟨i, hi⟩ := hfree
      have := (get_unqueued_event_eq_none chain).1 hget i
      rw [hi] at this
      cases this
    | some e =>
      obtain ⟨l', hl', hlen⟩ := Linked_cut chain.events e
        (nightcap_event_init (chain.events e) t cb rep) rfl l _ hlink
      obtain ⟨c', hrun⟩ := chain_queue_returns fuel
        (chain_with_fresh_event chain e t cb rep) e l' hl' (le_trans hlen hfuel)
      refine ⟨c', ?_⟩
      simp only [nightcap_schedule, hget]
      show Option.map _ (nightcap_chain_queue fuel (chain_with_fresh_event chain e t cb rep) e) = _
      rw [hrun]
      rfl

/-- C8 (amended) on a full pool (16 schedules) and on a chain of two events. -/
theorem schedule_capacity_witness :
    (∀ fuel, nightcap_schedule fuel (chain_of_calls (List.replicate 16 (5, 1, false))) 7 1 false
        = some (chain_of_calls (List.replicate 16 (5, 1, false)), false)) ∧
    (∃ c', nightcap_schedule 16 (chain_of_calls [(50, 1, false), (100, 1, false)]) 7 1 false
        = some (c', true)) :=
  ⟨(schedule_capacity (chain_of_calls (List.replicate 16 (5, 1, false))) 7 1 false).1 (by decide),
   (schedule_capacity (chain_of_calls [(50, 1, false), (100, 1, false)]) 7 1 false).2 16 16 [0, 1]
     ⟨2, by decide⟩ (by decide) (by decide)⟩

/-! ### Tie-free insertion keeps the chain strictly sorted -/

theorem list_queue_loop_strict (tm : Fin NIGHTCAP_MAX_EVENTS → Nat) (e : Fin NIGHTCAP_MAX_EVENTS) :
    ∀ (l : List (Fin NIGHTCAP_MAX_EVENTS)) (tp : Fin NIGHTCAP_MAX_EVENTS),
      (tp :: l).Pairwise (fun a b => tm a < tm b) → tm tp < tm e → (∀ x ∈ l, tm x ≠ tm e) →
      (list_queue_loop tm e (tp :: l)).Pairwise (fun a b => tm a < tm b)
  | [], tp, _, hlt, _ => by
    show ([tp, e] : List (Fin NIGHTCAP_MAX_EVENTS)).Pairwise _
    simp [hlt]
  | nxt :: rest, tp, hs, hlt, hne => by
    rw [list_queue_loop_cons_cons]
    rw [List.pairwise_cons] at hs
    obtain ⟨htp, hs2⟩ := hs
    have hs2' := hs2
    rw [List.pairwise_cons] at hs2'
    by_cases hc : tm e > tm tp ∧ tm e < tm nxt
    · rw [if_pos hc, List.pairwise_cons, List.pairwise_cons]
      refine ⟨?_, ?_, hs2⟩
      · intro x hx
        rw [List.mem_cons] at hx
        rcases hx with hx | hx
        · subst hx
          exact hlt
        · exact htp x hx
      · intro x hx
        rw [List.mem_cons] at hx
        rcases hx with hx | hx
        · subst hx
          exact hc.2
        · have := hs2'.1 x hx
          omega
    · rw [if_neg hc, List.pairwise_cons]
      have hnx : tm nxt ≠ tm e := hne nxt (List.mem_cons_self _ _)
      have hlt2 : tm nxt < tm e := by omega
      refine ⟨?_, list_queue_loop_strict tm e rest nxt hs2 hlt2
        (fun x hx => hne x (List.mem_cons_of_mem _ hx))⟩
      intro x hx
      rw [mem_list_queue_loop] at hx
      rcases hx with hx | hx
      · subst hx
        exact hlt
      · exact htp x hx

theorem list_queue_strict (tm : Fin NIGHTCAP_MAX_EVENTS → Nat) (e : Fin NIGHTCAP_MAX_EVENTS)
    (l : List (Fin NIGHTCAP_MAX_EVENTS)) (hs : l.Pairwise (fun a b => tm a < tm b))
    (hne : ∀ x ∈ l, tm x ≠ tm e) :
    (list_queue tm e l).Pairwise (fun a b => tm a < tm b) := by
  cases l with
  | nil =>
    show ([e] : List (Fin NIGHTCAP_MAX_EVENTS)).Pairwise _
    simp
  | cons h rest =>
    have hs' := hs
    rw [List.pairwise_cons] at hs'
    by_cases hc : tm e < tm h
    · simp only [list_queue, hc, if_true]
      rw [List.pairwise_cons]
      refine ⟨?_, hs⟩
      intro x hx
      rw [List.mem_cons] at hx
      rcases hx with hx | hx
      · subst hx
        exact hc
      · have := hs'.1 x hx
        omega
    · simp only [list_queue, hc, if_false]
      have hh : tm h ≠ tm e := hne h (List.mem_cons_self _ _)
      exact list_queue_loop_strict tm e rest h hs (by omega)
        (fun x hx => hne x (List.mem_cons_of_mem _ hx))

/-! ### Chains built by tie-free one-shot schedules and dequeues -/

theorem StrictInv_init : StrictInv nightcap_chain_init [] :=
  ⟨rfl, fun _ => ⟨fun h => (by cases h), fun h => absurd h (List.not_mem_nil _)⟩,
   fun _ hx => absurd hx (List.not_mem_nil _), List.Pairwise.nil⟩

theorem StrictInv_head (chain : nightcap_chain_t) (l : List (Fin NIGHTCAP_MAX_EVENTS))
    (hinv : StrictInv chain l) : head_is_earliest_queued chain := by
  obtain ⟨hlink, hq, _, hs⟩ := hinv
  cases l with
  | nil => exact Or.inl hlink
  | cons h rest =>
    refine Or.inr ⟨h, hlink.1, ?_⟩
    intro i hi
    have hmem := (hq i).1 hi
    rw [List.pairwise_cons] at hs
    rw [List.mem_cons] at hmem
    rcases hmem with hmem | hmem
    · rw [hmem]
    · exact le_of_lt (hs.1 i hmem)

theorem StrictInv_schedule (fuel : Nat) (hfuel : NIGHTCAP_MAX_EVENTS ≤ fuel)
    (chain : nightcap_chain_t) (l : List (Fin NIGHTCAP_MAX_EVENTS)) (hinv : StrictInv chain l)
    (t cb : Nat) (htie : ∀ i, (chain.events i).queued = true → (chain.events i).time ≠ t) :
    ∃ c' l' ok, nightcap_schedule fuel chain t cb false = some (c', ok) ∧ StrictInv c' l' := by
  obtain ⟨hlink, hq, hrep, hs⟩ := hinv
  cases hfree : nightcap_chain_get_unqueued_event chain with
  | none =>
    exact ⟨chain, l, false, by simp only [nightcap_schedule, hfree], hlink, hq, hrep, hs⟩
  | some e =>
    have hlen : l.length ≤ fuel := le_trans (Linked_length_le l _ hlink) hfuel
    obtain ⟨c', hrun, hmem, hlk, hframe, hnew, _⟩ :=
      schedule_spec fuel chain t cb false e l hfree hlink (fun i hi => (hq i).2 hi) hlen
    obtain ⟨nxe, hnxe⟩ := hnew
    have hte : (c'.events e).time = t := by rw [hnxe]; rfl
    have hagree : ∀ i ∈ l, (c'.events i).time = (chain.events i).time := by
      intro i hi
      obtain ⟨nx, hnx⟩ := hframe i (fun h => hmem (h ▸ hi))
      rw [hnx]
    refine ⟨c', _, true, hrun, hlk, ?_, ?_, ?_⟩
    · intro i
      rw [mem_list_queue]
      by_cases hie : i = e
      · subst hie
        refine ⟨fun _ => Or.inl rfl, fun _ => ?_⟩
        rw [hnxe]
        rfl
      · obtain ⟨nx, hnx⟩ := hframe i hie
        rw [hnx, event_with_next_queued, hq i]
        exact ⟨fun h => Or.inr h, fun h => h.resolve_left hie⟩
    · intro i hi
      rw [mem_list_queue] at hi
      by_cases hie : i = e
      · subst hie
        rw [hnxe]
        rfl
      · obtain ⟨nx, hnx⟩ := hframe i hie
        rw [hnx]
        exact hrep i (hi.resolve_left hie)
    · refine list_queue_strict _ e l ?_ ?_
      · refine List.Pairwise.imp_of_mem ?_ hs
        intro a b ha hb hab
        rw [hagree a ha, hagree b hb]
        exact hab
      · intro x hx
        show (c'.events x).time ≠ (c'.events e).time
        rw [hagree x hx, hte]
        exact htie x ((hq x).2 hx)

theorem StrictInv_dequeue (fuel : Nat) (hfuel : NIGHTCAP_MAX_EVENTS < fuel)
    (chain : nightcap_chain_t) (l : List (Fin NIGHTCAP_MAX_EVENTS)) (hinv : StrictInv chain l)
    (now : Nat) :
    ∃ c' l' fired, nightcap_chain_dequeue run_inert fuel chain now = some (c', fired) ∧
      StrictInv c' l' := by
  obtain ⟨hlink, hq, hrep, hs⟩ := hinv
  have hlen : l.length < fuel := lt_of_le_of_lt (Linked_length_le l _ hlink) hfuel
  obtain ⟨c', hrun, hlk, hout, hin⟩ := dequeue_inert_spec l chain fuel now hlink hlen
  have hnodup := Linked_nodup _ _ hlink
  have hsplit := List.takeWhile_append_dropWhile
    (fun i => decide ((chain.events i).time ≤ now)) l
  rw [← hsplit] at hnodup
  have hdisj := List.disjoint_of_nodup_append hnodup
  have hmemsplit : ∀ i, i ∈ l ↔
      (i ∈ l.takeWhile (fun i => decide ((chain.events i).time ≤ now)) ∨
       i ∈ l.dropWhile (fun i => decide ((chain.events i).time ≤ now))) := by
    intro i
    rw [← List.mem_append, hsplit]
  refine ⟨c', _, _, hrun, hlk, ?_, ?_, ?_⟩
  · intro i
    by_cases hi : i ∈ l.takeWhile (fun i => decide ((chain.events i).time ≤ now))
    · have hil : i ∈ l := List.takeWhile_subset _ hi
      have hqf : (c'.events i).queued = false := by
        rw [hin i hi]
        show ((chain.events i).queued && (chain.events i).repeating) = false
        rw [hrep i hil]
        simp
      rw [hqf]
      exact ⟨fun h => (by cases h), fun h => absurd h (hdisj hi)⟩
    · rw [hout i hi, hq i, hmemsplit i]
      exact ⟨fun h => h.resolve_left hi, fun h => Or.inr h⟩
  · intro i hi
    have hil : i ∈ l := List.dropWhile_subset _ hi
    by_cases hif : i ∈ l.takeWhile (fun i => decide ((chain.events i).time ≤ now))
    · exact absurd hi (hdisj hif)
    · rw [hout i hif]
      exact hrep i hil
  · refine List.Pairwise.imp ?_ (List.Pairwise.sublist (List.dropWhile_sublist _) hs)
    intro a b hab
    rw [dequeue_inert_time chain c' _ hout hin a, dequeue_inert_time chain c' _ hout hin b]
    exact hab

theorem StrictInv_run (fuel : Nat) (hfuel : NIGHTCAP_MAX_EVENTS < fuel) :
    ∀ (calls : List api_call) (chain : nightcap_chain_t) (l : List (Fin NIGHTCAP_MAX_EVENTS)),
      StrictInv chain l → tie_free_run fuel chain calls = true →
      ∃ c' l', api_run fuel chain calls = some c' ∧ StrictInv c' l'
  | [], chain, l, hinv, _ => ⟨chain, l, rfl, hinv⟩
  | call :: rest, chain, l, hinv, hok => by
    simp only [tie_free_run, Bool.and_eq_true] at hok
    obtain ⟨hcall, hrest⟩ := hok
    cases call with
    | schedule t cb rep =>
      simp only [tie_free_call, Bool.and_eq_true, Bool.not_eq_true', List.all_eq_true,
        Bool.or_eq_true, bne_iff_ne, ne_eq] at hcall
      obtain ⟨hrep, htie⟩ := hcall
      subst hrep
      have htie' : ∀ i, (chain.events i).queued = true → (chain.events i).time ≠ t := by
        intro i hi
        rcases htie i (List.mem_finRange i) with h | h
        · rw [hi] at h
          cases h
        · exact h
      obtain ⟨c1, l1, ok, hrun, hinv1⟩ :=
        StrictInv_schedule fuel (le_of_lt hfuel) chain l hinv t cb htie'
      have hstep : api_step fuel chain (api_call.schedule t cb false) = some c1 := by
        simp only [api_step, hrun, Option.map_some']
      rw [hstep] at hrest
      obtain ⟨c', l', hrun', hinv'⟩ := StrictInv_run fuel hfuel rest c1 l1 hinv1 hrest
      exact ⟨c', l', by simp only [api_run, hstep, hrun'], hinv'⟩
    | reschedule e t =>
      simp [tie_free_call] at hcall
    | dequeue now =>
      obtain ⟨c1, l1, fired, hrun, hinv1⟩ := StrictInv_dequeue fuel hfuel chain l hinv now
      have hstep : api_step fuel chain (api_call.dequeue now) = some c1 := by
        simp only [api_step, hrun, Option.map_some']
      rw [hstep] at hrest
      obtain ⟨c', l', hrun', hinv'⟩ := StrictInv_run fuel hfuel rest c1 l1 hinv1 hrest
      exact ⟨c', l', by simp only [api_run, hstep, hrun'], hinv'⟩

/-- With a tie the chain is left unsorted, and a dequeue can then leave a head
that is not the earliest queued slot: after schedules at 50, 100, 50 and a
dequeue at 60, `head` is slot 1 (time 100) while slot 2 is queued with time 50. -/
theorem head_not_earliest_after_tie :
    (api_run 17 nightcap_chain_init
        [api_call.schedule 50 1 false, api_call.schedule 100 1 false,
         api_call.schedule 50 1 false, api_call.dequeue 60]).map
      (fun c => (c.head, (c.events 1).time, (c.events 2).queued, (c.events 2).time))
      = some (some 1, 100, true, 50) := by
  decide

/-- C5 (as stated) fails: schedule a repeating event at 10 and a one-shot event
at 50, then dequeue at 20. The repeating slot 0 has been fired and unlinked but
keeps `queued` set with time 10, while `head` is slot 1 with time 50. -/
theorem head_not_earliest_after_repeating_fires :
    (api_run 17 nightcap_chain_init
        [api_call.schedule 10 1 true, api_call.schedule 50 1 false, api_call.dequeue 20]).map
      (fun c => (c.head, (c.events 1).time, (c.events 0).queued, (c.events 0).time))
      = some (some 1, 50, true, 10) ∧
    ¬ (50 ≤ 10) := by
  decide

/-- C5 (amended): after any sequence of `nightcap_schedule` calls with
`repeating = false`, each at a time that no slot with `queued` set has when the
call is made, and `nightcap_chain_dequeue` calls whose callbacks leave the chain
alone, every call returns and `chain->head` is `NULL` or has the least time
among all slots with `queued` set. -/
theorem head_earliest_when_tie_free (fuel : Nat) (hfuel : NIGHTCAP_MAX_EVENTS < fuel)
    (calls : List api_call) (hok : tie_free_run fuel nightcap_chain_init calls = true) :
    ∃ c, api_run fuel nightcap_chain_init calls = some c ∧ head_is_earliest_queued c := by
  obtain ⟨c, l, hrun, hinv⟩ := StrictInv_run fuel hfuel calls nightcap_chain_init [] StrictInv_init hok
  exact ⟨c, hrun, StrictInv_head c l hinv⟩

/-- C5 (amended) on schedules at 100 and 50, a drain at 60 and a schedule at 70. -/
theorem head_earliest_when_tie_free_witness :
    (NIGHTCAP_MAX_EVENTS < 17 ∧
      tie_free_run 17 nightcap_chain_init
        [api_call.schedule 100 1 false, api_call.schedule 50 2 false, api_call.dequeue 60,
         api_call.schedule 70 3 false] = true) ∧
    ∃ c, api_run 17 nightcap_chain_init
        [api_call.schedule 100 1 false, api_call.schedule 50 2 false, api_call.dequeue 60,
         api_call.schedule 70 3 false] = some c ∧ head_is_earliest_queued c :=
  ⟨by decide,
   head_earliest_when_tie_free 17 (by decide)
     [api_call.schedule 100 1 false, api_call.schedule 50 2 false, api_call.dequeue 60,
      api_call.schedule 70 3 false] (by decide)⟩

/-! ### Event initialisation -/

/-- C17: `nightcap_event_reinit` sets `queued`, stores the given time and clears
`next`, leaving `repeating`, `callback`, `name` and `params` as they were;
`nightcap_event_init` sets `queued`, stores the given `repeating`, time and
callback and clears `next` (and leaves `name` and `params` as they were). -/
theorem event_init_reinit_fields (evt : nightcap_event_t) (time callback : Nat)
    (repeating : Bool) :
    ((nightcap_event_reinit evt time).queued = true ∧
      (nightcap_event_reinit evt time).time = time ∧
      (nightcap_event_reinit evt time).next = none ∧
      (nightcap_event_reinit evt time).repeating = evt.repeating ∧
      (nightcap_event_reinit evt time).callback = evt.callback ∧
      (nightcap_event_reinit evt time).name = evt.name ∧
      (nightcap_event_reinit evt time).params = evt.params) ∧
    ((nightcap_event_init evt time callback repeating).queued = true ∧
      (nightcap_event_init evt time callback repeating).repeating = repeating ∧
      (nightcap_event_init evt time callback repeating).time = time ∧
      (nightcap_event_init evt time callback repeating).callback = callback ∧
      (nightcap_event_init evt time callback repeating).next = none ∧
      (nightcap_event_init evt time callback repeating).name = evt.name ∧
      (nightcap_event_init evt time callback repeating).params = evt.params) :=
  ⟨⟨rfl, rfl, rfl, rfl, rfl, rfl, rfl⟩, ⟨rfl, rfl, rfl, rfl, rfl, rfl, rfl⟩⟩

/-! ### Ceiling snap without wrap-around -/

/-- C19: for `uint32_t` values `t` and `s ≠ 0` with `t - t % s + s ≤ 2^32 - 1`,
`nightcap_ceilsnap(t, s)` is the smallest multiple of `s` strictly greater than
`t`; it is `t + s` when `t` is a multiple of `s`, and it is
`nightcap_floorsnap(t, s) + s`. -/
theorem ceilsnap_smallest_multiple_above (t s : Nat) (ht : t < UINT32_MOD)
    (_hs : s < UINT32_MOD) (hs0 : s ≠ 0) (hfit : t - t % s + s ≤ UINT32_MOD - 1) :
    ∃ r f, nightcap_ceilsnap t s = some r ∧ nightcap_floorsnap t s = some f ∧
      t < r ∧ r % s = 0 ∧ (∀ m, m % s = 0 → t < m → r ≤ m) ∧
      (t % s = 0 → r = t + s) ∧ r = f + s := by
  have hmod : t % s ≤ t := Nat.mod_le t s
  have hlt : t % s < s := Nat.mod_lt t (Nat.pos_of_ne_zero hs0)
  have hfit' : t - t % s + s < UINT32_MOD := by omega
  refine ⟨t - t % s + s, t - t % s, ?_, ?_, by omega, ?_, ?_, ?_, rfl⟩
  · simp [nightcap_ceilsnap, hs0, u32_sub_of_le hmod ht, u32_add, Nat.mod_eq_of_lt hfit']
  · simp [nightcap_floorsnap, hs0, u32_sub_of_le hmod ht]
  · rw [Nat.add_mod_right]
    exact sub_mod_self_mod t s
  · intro m hm hmt
    by_contra hcon
    have hd1 : s ∣ m := Nat.dvd_of_mod_eq_zero hm
    have hd2 : s ∣ t - t % s := Nat.dvd_of_mod_eq_zero (sub_mod_self_mod t s)
    have h2 : (m - (t - t % s)) % s = 0 := Nat.mod_eq_zero_of_dvd (Nat.dvd_sub' hd1 hd2)
    have h3 : m - (t - t % s) < s := by omega
    rw [Nat.mod_eq_of_lt h3] at h2
    omega
  · intro h0
    rw [h0]
    omega

/-- C19 at `t = 90`, `s = 30`: the result is `120 = 90 + 30`. -/
theorem ceilsnap_smallest_multiple_above_witness :
    (90 < UINT32_MOD ∧ 30 < UINT32_MOD ∧ 30 ≠ 0 ∧ 90 - 90 % 30 + 30 ≤ UINT32_MOD - 1) ∧
    ∃ r f, nightcap_ceilsnap 90 30 = some r ∧ nightcap_floorsnap 90 30 = some f ∧
      90 < r ∧ r % 30 = 0 ∧ (∀ m, m % 30 = 0 → 90 < m → r ≤ m) ∧
      (90 % 30 = 0 → r = 90 + 30) ∧ r = f + 30 :=
  ⟨by decide,
   ceilsnap_smallest_multiple_above 90 30 (by decide) (by decide) (by decide) (by decide)⟩

/-! ### Sleep duration -/

theorem u64_sub_of_le {a b : Nat} (hb : b ≤ a) (ha : a < UINT64_MOD) : u64_sub a b = a - b := by
  unfold u64_sub
  have h : a + UINT64_MOD - b = (a - b) + UINT64_MOD := by omega
  rw [h, Nat.add_mod_right, Nat.mod_eq_of_lt (by omega)]

theorem u64_sub_lt (a b : Nat) : u64_sub a b < UINT64_MOD :=
  Nat.mod_lt _ (by decide)

theorem u64_mul_time (time : Nat) (ht : time < UINT32_MOD) :
    u64_mul time NIGHTCAP_S_TO_US = time * NIGHTCAP_S_TO_US := by
  unfold u64_mul
  apply Nat.mod_eq_of_lt
  have : time * NIGHTCAP_S_TO_US < UINT32_MOD * NIGHTCAP_S_TO_US :=
    Nat.mul_lt_mul_of_pos_right ht (by decide)
  have h2 : UINT32_MOD * NIGHTCAP_S_TO_US < UINT64_MOD := by decide
  omega

/-- The sleep duration in the code's own arithmetic:
`nightcap_sleep_until_next_event` hands no duration to the sleep primitive
exactly when `chain->head` is `NULL`. Otherwise, with `now` the clock reading
in microseconds and `target` the `uint64_t` value of
`head->time * 1000000 - padding`, the duration is `0` if `target ≤ now` and
`target - now` otherwise; `target` is the exact difference whenever
`padding ≤ head->time * 1000000`, and wraps otherwise. -/
theorem sleep_duration_spec (chain : nightcap_chain_t) (tv_sec tv_usec padding : Nat) :
    (nightcap_sleep_until_next_event chain tv_sec tv_usec padding = none ↔ chain.head = none) ∧
    ∀ h, chain.head = some h → (chain.events h).time < UINT32_MOD →
      nightcap_sleep_until_next_event chain tv_sec tv_usec padding =
        some (if u64_sub ((chain.events h).time * NIGHTCAP_S_TO_US) padding
                  ≤ sleep_epoch_us tv_sec tv_usec then 0
              else u64_sub ((chain.events h).time * NIGHTCAP_S_TO_US) padding
                  - sleep_epoch_us tv_sec tv_usec) ∧
      (padding ≤ (chain.events h).time * NIGHTCAP_S_TO_US →
        u64_sub ((chain.events h).time * NIGHTCAP_S_TO_US) padding
          = (chain.events h).time * NIGHTCAP_S_TO_US - padding) := by
  constructor
  · cases hh : chain.head with
    | none => simp [nightcap_sleep_until_next_event, hh]
    | some h =>
      simp only [nightcap_sleep_until_next_event, hh]
      constructor
      · intro hcon
        split at hcon <;> cases hcon
      · intro hcon
        cases hcon
  · intro h hh ht
    have hmul := u64_mul_time (chain.events h).time ht
    have hprod : (chain.events h).time * NIGHTCAP_S_TO_US < UINT64_MOD := by
      rw [← hmul]
      exact Nat.mod_lt _ (by decide)
    have htl := u64_sub_lt ((chain.events h).time * NIGHTCAP_S_TO_US) padding
    refine ⟨?_, fun hp => u64_sub_of_le hp hprod⟩
    simp only [nightcap_sleep_until_next_event, hh, hmul]
    by_cases hc : u64_sub ((chain.events h).time * NIGHTCAP_S_TO_US) padding
        < sleep_epoch_us tv_sec tv_usec
    · rw [if_pos hc, if_pos (le_of_lt hc)]
    · rw [if_neg hc, u64_sub_of_le (not_lt.1 hc) htl]
      by_cases hle : u64_sub ((chain.events h).time * NIGHTCAP_S_TO_US) padding
          ≤ sleep_epoch_us tv_sec tv_usec
      · rw [if_pos hle]
        congr 1
        omega
      · rw [if_neg hle]

/-- The scenario `now = 1000 s`, `head->time = 1010`, padding 2000000 us: the
duration is 8000000 us; on a fresh chain no duration is produced. -/
theorem sleep_duration_spec_witness :
    ((chain_of_calls [(1010, 1, false)]).head = some 0 ∧
      ((chain_of_calls [(1010, 1, false)]).events 0).time < UINT32_MOD) ∧
    nightcap_sleep_until_next_event (chain_of_calls [(1010, 1, false)]) 1000 0 2000000
      = some (if u64_sub (((chain_of_calls [(1010, 1, false)]).events 0).time * NIGHTCAP_S_TO_US)
                  2000000 ≤ sleep_epoch_us 1000 0 then 0
              else u64_sub (((chain_of_calls [(1010, 1, false)]).events 0).time
                  * NIGHTCAP_S_TO_US) 2000000 - sleep_epoch_us 1000 0) ∧
    nightcap_sleep_until_next_event (chain_of_calls [(1010, 1, false)]) 1000 0 2000000
      = some 8000000 ∧
    nightcap_sleep_until_next_event nightcap_chain_init 1000 0 2000000 = none :=
  ⟨by decide,
   ((sleep_duration_spec (chain_of_calls [(1010, 1, false)]) 1000 0 2000000).2 0
      (by decide) (by decide)).1,
   by decide, by decide⟩

/-- C11 (the code at the failing input): head time 10 s, clock reading 5 s,
padding 20000000 us. The target `10 * 1000000 - 20000000` lies below zero,
hence below `now`, and the claim asks for a duration of `0`; in `uint64_t` the
subtraction wraps to `2^64 - 10000000`, the test `target < now` fails and the
duration handed to the sleep primitive is `2^64 - 15000000`. -/
theorem sleep_padding_above_head_wraps :
    (chain_of_calls [(10, 1, false)]).head = some 0 ∧
    ((chain_of_calls [(10, 1, false)]).events 0).time * NIGHTCAP_S_TO_US < 20000000 ∧
    sleep_epoch_us 5 0 = 5000000 ∧
    u64_sub (((chain_of_calls [(10, 1, false)]).events 0).time * NIGHTCAP_S_TO_US) 20000000
      = 18446744073699551616 ∧
    nightcap_sleep_until_next_event (chain_of_calls [(10, 1, false)]) 5 0 20000000
      = some 18446744073694551616 := by
  decide

/-- C12 (the code at the failing input): head time 1 s, clock reading 1 s
(so `head->time * 1000000 ≤ now`), padding 2000000 us. The subtraction of the
padding wraps below zero to `2^64 - 1000000`, the test `target < now` fails and
the duration handed to the sleep primitive is `2^64 - 2000000`, not `0`. -/
theorem sleep_overdue_padding_wraps :
    (chain_of_calls [(1, 1, false)]).head = some 0 ∧
    ((chain_of_calls [(1, 1, false)]).events 0).time * NIGHTCAP_S_TO_US ≤ sleep_epoch_us 1 0 ∧
    2000000 < UINT64_MOD ∧
    nightcap_sleep_until_next_event (chain_of_calls [(1, 1, false)]) 1 0 2000000
      = some 18446744073707551616 := by
  decide

/-! ### Flags after a drain -/

theorem dequeue_inert_flags :
    ∀ (fuel : Nat) (chain : nightcap_chain_t) (now : Nat) (c' : nightcap_chain_t)
      (fired : List (Fin NIGHTCAP_MAX_EVENTS)),
      nightcap_chain_dequeue run_inert fuel chain now = some (c', fired) →
      (∀ i, i ∉ fired → c'.events i = chain.events i) ∧
      (∀ i, i ∈ fired → c'.events i = { chain.events i with
        queued := (chain.events i).queued && (chain.events i).repeating }) := by
  intro fuel
  induction fuel with
  | zero =>
    intro chain now c' fired hrun
    simp [nightcap_chain_dequeue] at hrun
  | succ f ih =>
    intro chain now c' fired hrun
    cases hhead : chain.head with
    | none =>
      simp only [nightcap_chain_dequeue, hhead, Option.some.injEq, Prod.mk.injEq] at hrun
      obtain ⟨rfl, rfl⟩ := hrun
      exact ⟨fun _ _ => rfl, fun i hi => absurd hi (List.not_mem_nil _)⟩
    | some h =>
      by_cases hc : (chain.events h).time ≤ now
      · let evt1 : nightcap_event_t :=
          { chain.events h with queued := (chain.events h).queued && (chain.events h).repeating }
        let chain3 : nightcap_chain_t :=
          { _mut_flag := false, head := (chain.events h).next,
            events := pool_set chain.events h evt1 }
        have hstep : nightcap_chain_dequeue run_inert (f + 1) chain now
            = (nightcap_chain_dequeue run_inert f chain3 now).map (fun r => (r.1, h :: r.2)) := by
          simp only [nightcap_chain_dequeue, hhead, ge_iff_le, hc, if_true, run_inert]
        rw [hstep] at hrun
        cases hrec : nightcap_chain_dequeue run_inert f chain3 now with
        | none =>
          rw [hrec] at hrun
          cases hrun
        | some r =>
          obtain ⟨c1, fired1⟩ := r
          rw [hrec] at hrun
          simp only [Option.map_some', Option.some.injEq, Prod.mk.injEq] at hrun
          obtain ⟨rfl, rfl⟩ := hrun
          obtain ⟨hout, hin⟩ := ih chain3 now c1 fired1 hrec
          have h3same : chain3.events h = evt1 := pool_set_same _ _ _
          have h3other : ∀ i, i ≠ h → chain3.events i = chain.events i :=
            fun i hi => pool_set_other _ _ hi
          constructor
          · intro i hi
            rw [List.mem_cons, not_or] at hi
            rw [hout i hi.2, h3other i hi.1]
          · intro i hmem
            by_cases hih : i = h
            · subst hih
              by_cases hif : i ∈ fired1
              · rw [hin i hif, h3same]
                show ({ chain.events i with
                  queued := ((chain.events i).queued && (chain.events i).repeating)
                    && (chain.events i).repeating } : nightcap_event_t) = _
                rw [Bool.and_assoc, Bool.and_self]
              · rw [hout i hif, h3same]
            · have hif : i ∈ fired1 := by
                rw [List.mem_cons] at hmem
                exact hmem.resolve_left hih
              rw [hin i hif, h3other i hih]
      · simp only [nightcap_chain_dequeue, hhead, ge_iff_le, hc, if_false, Option.some.injEq,
          Prod.mk.injEq] at hrun
        obtain ⟨rfl, rfl⟩ := hrun
        exact ⟨fun _ _ => rfl, fun i hi => absurd hi (List.not_mem_nil _)⟩

theorem get_unqueued_event_lowest (chain : nightcap_chain_t) (e : Fin NIGHTCAP_MAX_EVENTS)
    (hfree : (chain.events e).queued = false)
    (hlow : ∀ j, j < e → (chain.events j).queued = true) :
    nightcap_chain_get_unqueued_event chain = some e := by
  cases hget : nightcap_chain_get_unqueued_event chain with
  | none =>
    have := (get_unqueued_event_eq_none chain).1 hget e
    rw [hfree] at this
    cases this
  | some e' =>
    obtain ⟨hq', hlow'⟩ := get_unqueued_event_eq_some chain e' hget
    rcases lt_trichotomy e' e with hlt | heq | hgt
    · have := hlow e' hlt
      rw [hq'] at this
      cases this
    · rw [heq]
    · have := hlow' e hgt
      rw [hfree] at this
      cases this

/-- C13: on a chain whose `next` walk from `head` reaches `NULL`,
`nightcap_chain_dequeue` with callbacks that leave the chain alone returns; and
whenever it returns, on any chain, every slot it fired whose `repeating` flag is
clear has `queued` clear afterwards, so `nightcap_chain_get_unqueued_event`
then returns a slot, and returns that very slot when every lower-index slot has
`queued` set. -/
theorem dequeue_frees_one_shot (chain : nightcap_chain_t) (now : Nat) :
    (∀ (n fuel : Nat) (l : List (Fin NIGHTCAP_MAX_EVENTS)),
      chain_walk chain.events n chain.head = some l → l.length < fuel →
      ∃ c' fired, nightcap_chain_dequeue run_inert fuel chain now = some (c', fired)) ∧
    (∀ (fuel : Nat) (c' : nightcap_chain_t) (fired : List (Fin NIGHTCAP_MAX_EVENTS)),
      nightcap_chain_dequeue run_inert fuel chain now = some (c', fired) →
      ∀ e ∈ fired, (chain.events e).repeating = false →
        (c'.events e).queued = false ∧
        nightcap_chain_get_unqueued_event c' ≠ none ∧
        ((∀ j, j < e → (c'.events j).queued = true) →
          nightcap_chain_get_unqueued_event c' = some e)) := by
  constructor
  · intro n fuel l hwalk hfuel
    have hlink := (chain_walk_iff n _ l).1 hwalk
    obtain ⟨c', hrun, _⟩ := dequeue_inert_spec l chain fuel now hlink.1 hfuel
    exact ⟨c', _, hrun⟩
  · intro fuel c' fired hrun e he hrep
    obtain ⟨_, hin⟩ := dequeue_inert_flags fuel chain now c' fired hrun
    have hq : (c'.events e).queued = false := by
      rw [hin e he]
      show ((chain.events e).queued && (chain.events e).repeating) = false
      rw [hrep, Bool.and_false]
    refine ⟨hq, ?_, fun hlow => get_unqueued_event_lowest c' e hq hlow⟩
    intro hnone
    have := (get_unqueued_event_eq_none c').1 hnone e
    rw [hq] at this
    cases this

/-- C13 on the chain left by one-shot schedules at 50 and 100, drained at 60:
slot 0 is fired and is the slot handed out next. -/
theorem dequeue_frees_one_shot_witness :
    (∃ c' fired, nightcap_chain_dequeue run_inert 3
        (chain_of_calls [(50, 1, false), (100, 1, false)]) 60 = some (c', fired)) ∧
    (nightcap_chain_dequeue run_inert 3
        (chain_of_calls [(50, 1, false), (100, 1, false)]) 60).map
      (fun r => (r.2, (r.1.events 0).queued, nightcap_chain_get_unqueued_event r.1))
      = some ([0], false, some 0) :=
  ⟨(dequeue_frees_one_shot (chain_of_calls [(50, 1, false), (100, 1, false)]) 60).1 16 3 [0, 1]
     (by decide) (by decide),
   by decide⟩

/-! ### Counting queued slots -/

theorem count_foldl (p : Fin NIGHTCAP_MAX_EVENTS → Bool) :
    ∀ (l : List (Fin NIGHTCAP_MAX_EVENTS)) (acc : Nat),
      l.foldl (fun counter i => counter + (if p i then 1 else 0)) acc
        = acc + (l.filter p).length
  | [], acc => by simp
  | a :: l, acc => by
    rw [List.foldl_cons, count_foldl p l]
    by_cases hp : p a = true
    · simp [List.filter_cons, hp]
      omega
    · simp [List.filter_cons, hp]

theorem queued_event_count_eq (chain : nightcap_chain_t) :
    nightcap_chain_get_queued_event_count chain
      = ((List.finRange NIGHTCAP_MAX_EVENTS).filter (fun i => (chain.events i).queued)).length := by
  unfold nightcap_chain_get_queued_event_count
  rw [count_foldl (fun i => (chain.events i).queued)]
  simp

theorem length_le_queued_event_count (chain : nightcap_chain_t)
    (m : List (Fin NIGHTCAP_MAX_EVENTS)) (hnodup : m.Nodup)
    (hq : ∀ i ∈ m, (chain.events i).queued = true) :
    m.length ≤ nightcap_chain_get_queued_event_count chain := by
  rw [queued_event_count_eq]
  apply List.Subperm.length_le
  apply List.subperm_of_subset hnodup
  intro i hi
  rw [List.mem_filter]
  exact ⟨List.mem_finRange i, hq i hi⟩

/-- C14 (as stated) fails: `chain_with_unqueued_node` is the acyclic chain
`slot 0 → slot 1` whose slot 1 has `queued` clear. A drain at 60 fires the
repeating slot 0, which keeps `queued` set and is unlinked; one event (slot 1)
stays reachable and the queued count is 1, not strictly greater. -/
theorem queued_count_not_above_chain_length :
    chain_nodes chain_with_unqueued_node = some [0, 1] ∧
    (chain_with_unqueued_node.events 0).repeating = true ∧
    (chain_with_unqueued_node.events 1).queued = false ∧
    (nightcap_chain_dequeue run_inert 17 chain_with_unqueued_node 60).map
      (fun r => (r.2, (r.1.events 0).queued, chain_nodes r.1,
        nightcap_chain_get_queued_event_count r.1))
      = some ([0], true, some [1], 1) ∧
    ¬ (1 > [(1 : Fin NIGHTCAP_MAX_EVENTS)].length) := by
  decide

/-- C14 (amended): on a chain whose `next` walk from `head` reaches `NULL` and
whose reachable events all have `queued` set, `nightcap_chain_dequeue` with
callbacks that leave the chain alone returns, and every slot it fired whose
`repeating` flag is set still has `queued` set but is not reachable from
`head`, so the queued count is strictly greater than the number of reachable
events. -/
theorem dequeue_detaches_repeating (chain : nightcap_chain_t)
    (l : List (Fin NIGHTCAP_MAX_EVENTS)) (n fuel now : Nat)
    (hwalk : chain_walk chain.events n chain.head = some l)
    (hq : ∀ i ∈ l, (chain.events i).queued = true) (hfuel : l.length < fuel) :
    ∃ c' fired l', nightcap_chain_dequeue run_inert fuel chain now = some (c', fired) ∧
      chain_walk c'.events n c'.head = some l' ∧
      ∀ e ∈ fired, (chain.events e).repeating = true →
        (c'.events e).queued = true ∧ e ∉ l' ∧
        l'.length < nightcap_chain_get_queued_event_count c' := by
  have hlink := (chain_walk_iff n _ l).1 hwalk
  obtain ⟨c', hrun, hlk, hout, hin⟩ := dequeue_inert_spec l chain fuel now hlink.1 hfuel
  have hnodup := Linked_nodup _ _ hlink.1
  have hsplit := List.takeWhile_append_dropWhile
    (fun i => decide ((chain.events i).time ≤ now)) l
  have hnodup' := hnodup
  rw [← hsplit] at hnodup'
  have hdisj := List.disjoint_of_nodup_append hnodup'
  refine ⟨c', _, l.dropWhile (fun i => decide ((chain.events i).time ≤ now)), hrun, ?_, ?_⟩
  · rw [chain_walk_iff]
    exact ⟨hlk, le_trans (List.dropWhile_sublist _).length_le hlink.2⟩
  · intro e he hrep
    have hel : e ∈ l := List.takeWhile_subset _ he
    have hqe : (c'.events e).queued = true := by
      rw [hin e he]
      show ((chain.events e).queued && (chain.events e).repeating) = true
      rw [hq e hel, hrep]
      rfl
    have hnot : e ∉ l.dropWhile (fun i => decide ((chain.events i).time ≤ now)) := hdisj he
    refine ⟨hqe, hnot, ?_⟩
    have hnd : (e :: l.dropWhile (fun i => decide ((chain.events i).time ≤ now))).Nodup :=
      List.nodup_cons.2 ⟨hnot, hnodup.sublist (List.dropWhile_sublist _)⟩
    have hle := length_le_queued_event_count c' _ hnd (by
      intro i hi
      rw [List.mem_cons] at hi
      rcases hi with hi | hi
      · rw [hi]
        exact hqe
      · have hnf : i ∉ l.takeWhile (fun i => decide ((chain.events i).time ≤ now)) :=
          fun hf => hdisj hf hi
        rw [hout i hnf]
        exact hq i (List.dropWhile_subset _ hi))
    rw [List.length_cons] at hle
    omega

/-- C14 (amended) on a repeating event at 10 and a one-shot event at 50,
drained at 20: slot 0 is fired, stays queued and is unlinked; one event is
reachable and two slots count as queued. -/
theorem dequeue_detaches_repeating_witness :
    (chain_walk (chain_of_calls [(10, 1, true), (50, 1, false)]).events 16
        (chain_of_calls [(10, 1, true), (50, 1, false)]).head = some [0, 1] ∧
      (∀ i ∈ ([0, 1] : List (Fin NIGHTCAP_MAX_EVENTS)),
        ((chain_of_calls [(10, 1, true), (50, 1, false)]).events i).queued = true) ∧
      ([0, 1] : List (Fin NIGHTCAP_MAX_EVENTS)).length < 3) ∧
    (∃ c' fired l', nightcap_chain_dequeue run_inert 3
        (chain_of_calls [(10, 1, true), (50, 1, false)]) 20 = some (c', fired) ∧
      chain_walk c'.events 16 c'.head = some l' ∧
      ∀ e ∈ fired, ((chain_of_calls [(10, 1, true), (50, 1, false)]).events e).repeating = true →
        (c'.events e).queued = true ∧ e ∉ l' ∧
        l'.length < nightcap_chain_get_queued_event_count c') ∧
    (nightcap_chain_dequeue run_inert 3 (chain_of_calls [(10, 1, true), (50, 1, false)]) 20).map
      (fun r => (r.2, (r.1.events 0).queued, chain_nodes r.1,
        nightcap_chain_get_queued_event_count r.1))
      = some ([0], true, some [1], 2) :=
  ⟨by decide,
   dequeue_detaches_repeating (chain_of_calls [(10, 1, true), (50, 1, false)]) [0, 1] 16 3 20
     (by decide) (by decide) (by decide),
   by decide⟩

/-! ### Chains built by one-shot schedules and dequeues -/

theorem OneShotInv_init : OneShotInv nightcap_chain_init [] :=
  ⟨rfl, fun _ => ⟨fun h => (by cases h), fun h => absurd h (List.not_mem_nil _)⟩,
   fun _ hx => absurd hx (List.not_mem_nil _)⟩

theorem OneShotInv_schedule (fuel : Nat) (hfuel : NIGHTCAP_MAX_EVENTS ≤ fuel)
    (chain : nightcap_chain_t) (l : List (Fin NIGHTCAP_MAX_EVENTS)) (hinv : OneShotInv chain l)
    (t cb : Nat) :
    ∃ c' l' ok, nightcap_schedule fuel chain t cb false = some (c', ok) ∧ OneShotInv c' l' := by
  obtain ⟨hlink, hq, hrep⟩ := hinv
  cases hfree : nightcap_chain_get_unqueued_event chain with
  | none =>
    exact ⟨chain, l, false, by simp only [nightcap_schedule, hfree], hlink, hq, hrep⟩
  | some e =>
    have hlen : l.length ≤ fuel := le_trans (Linked_length_le l _ hlink) hfuel
    obtain ⟨c', hrun, hmem, hlk, hframe, hnew, _⟩ :=
      schedule_spec fuel chain t cb false e l hfree hlink (fun i hi => (hq i).2 hi) hlen
    obtain ⟨nxe, hnxe⟩ := hnew
    refine ⟨c', _, true, hrun, hlk, ?_, ?_⟩
    · intro i
      rw [mem_list_queue]
      by_cases hie : i = e
      · subst hie
        refine ⟨fun _ => Or.inl rfl, fun _ => ?_⟩
        rw [hnxe]
        rfl
      · obtain ⟨nx, hnx⟩ := hframe i hie
        rw [hnx, event_with_next_queued, hq i]
        exact ⟨fun h => Or.inr h, fun h => h.resolve_left hie⟩
    · intro i hi
      rw [mem_list_queue] at hi
      by_cases hie : i = e
      · subst hie
        rw [hnxe]
        rfl
      · obtain ⟨nx, hnx⟩ := hframe i hie
        rw [hnx]
        exact hrep i (hi.resolve_left hie)

theorem OneShotInv_dequeue (fuel : Nat) (hfuel : NIGHTCAP_MAX_EVENTS < fuel)
    (chain : nightcap_chain_t) (l : List (Fin NIGHTCAP_MAX_EVENTS)) (hinv : OneShotInv chain l)
    (now : Nat) :
    ∃ c' l' fired, nightcap_chain_dequeue run_inert fuel chain now = some (c', fired) ∧
      OneShotInv c' l' := by
  obtain ⟨hlink, hq, hrep⟩ := hinv
  have hlen : l.length < fuel := lt_of_le_of_lt (Linked_length_le l _ hlink) hfuel
  obtain ⟨c', hrun, hlk, hout, hin⟩ := dequeue_inert_spec l chain fuel now hlink hlen
  have hnodup := Linked_nodup _ _ hlink
  have hsplit := List.takeWhile_append_dropWhile
    (fun i => decide ((chain.events i).time ≤ now)) l
  rw [← hsplit] at hnodup
  have hdisj := List.disjoint_of_nodup_append hnodup
  have hmemsplit : ∀ i, i ∈ l ↔
      (i ∈ l.takeWhile (fun i => decide ((chain.events i).time ≤ now)) ∨
       i ∈ l.dropWhile (fun i => decide ((chain.events i).time ≤ now))) := by
    intro i
    rw [← List.mem_append, hsplit]
  refine ⟨c', _, _, hrun, hlk, ?_, ?_⟩
  · intro i
    by_cases hi : i ∈ l.takeWhile (fun i => decide ((chain.events i).time ≤ now))
    · have hil : i ∈ l := List.takeWhile_subset _ hi
      have hqf : (c'.events i).queued = false := by
        rw [hin i hi]
        show ((chain.events i).queued && (chain.events i).repeating) = false
        rw [hrep i hil]
        simp
      rw [hqf]
      exact ⟨fun h => (by cases h), fun h => absurd h (hdisj hi)⟩
    · rw [hout i hi, hq i, hmemsplit i]
      exact ⟨fun h => h.resolve_left hi, fun h => Or.inr h⟩
  · intro i hi
    have hil : i ∈ l := List.dropWhile_subset _ hi
    by_cases hif : i ∈ l.takeWhile (fun i => decide ((chain.events i).time ≤ now))
    · exact absurd hi (hdisj hif)
    · rw [hout i hif]
      exact hrep i hil

theorem OneShotInv_run (fuel : Nat) (hfuel : NIGHTCAP_MAX_EVENTS < fuel) :
    ∀ (calls : List api_call) (chain : nightcap_chain_t) (l : List (Fin NIGHTCAP_MAX_EVENTS)),
      OneShotInv chain l → calls.all one_shot_call = true →
      ∃ c' l', api_run fuel chain calls = some c' ∧ OneShotInv c' l'
  | [], chain, l, hinv, _ => ⟨chain, l, rfl, hinv⟩
  | call :: rest, chain, l, hinv, hok => by
    rw [List.all_cons, Bool.and_eq_true] at hok
    obtain ⟨hcall, hrest⟩ := hok
    cases call with
    | schedule t cb rep =>
      have hrep : rep = false := by simpa [one_shot_call] using hcall
      subst hrep
      obtain ⟨c1, l1, ok, hrun, hinv1⟩ :=
        OneShotInv_schedule fuel (le_of_lt hfuel) chain l hinv t cb
      have hstep : api_step fuel chain (api_call.schedule t cb false) = some c1 := by
        simp only [api_step, hrun, Option.map_some']
      obtain ⟨c', l', hrun', hinv'⟩ := OneShotInv_run fuel hfuel rest c1 l1 hinv1 hrest
      exact ⟨c', l', by simp only [api_run, hstep, hrun'], hinv'⟩
    | reschedule e t =>
      simp [one_shot_call] at hcall
    | dequeue now =>
      obtain ⟨c1, l1, fired, hrun, hinv1⟩ := OneShotInv_dequeue fuel hfuel chain l hinv now
      have hstep : api_step fuel chain (api_call.dequeue now) = some c1 := by
        simp only [api_step, hrun, Option.map_some']
      obtain ⟨c', l', hrun', hinv'⟩ := OneShotInv_run fuel hfuel rest c1 l1 hinv1 hrest
      exact ⟨c', l', by simp only [api_run, hstep, hrun'], hinv'⟩

theorem queued_event_count_of_nodes (chain : nightcap_chain_t)
    (l : List (Fin NIGHTCAP_MAX_EVENTS)) (hnodup : l.Nodup)
    (hq : ∀ i, (chain.events i).queued = true ↔ i ∈ l) :
    nightcap_chain_get_queued_event_count chain = l.length := by
  rw [queued_event_count_eq]
  apply List.Perm.length_eq
  rw [List.perm_ext_iff_of_nodup ((List.nodup_finRange _).filter _) hnodup]
  intro i
  rw [List.mem_filter, ← hq i]
  exact ⟨fun h => h.2, fun h => ⟨List.mem_finRange i, h⟩⟩

/-- C16: after any sequence of `nightcap_schedule` calls with
`repeating = false` and `nightcap_chain_dequeue` calls whose callbacks leave the
chain alone, every call has returned, the slots reachable from `head` are
exactly the slots with `queued` set, and `nightcap_chain_get_queued_event_count`
equals the length of the chain. -/
theorem reachable_eq_queued (fuel : Nat) (hfuel : NIGHTCAP_MAX_EVENTS < fuel)
    (calls : List api_call) (hcalls : calls.all one_shot_call = true) :
    ∃ c l, api_run fuel nightcap_chain_init calls = some c ∧ chain_nodes c = some l ∧
      (∀ i, i ∈ l ↔ (c.events i).queued = true) ∧
      nightcap_chain_get_queued_event_count c = l.length := by
  obtain ⟨c, l, hrun, hlink, hq, _⟩ :=
    OneShotInv_run fuel hfuel calls nightcap_chain_init [] OneShotInv_init hcalls
  exact ⟨c, l, hrun, (chain_nodes_iff c l).2 hlink, fun i => (hq i).symm,
    queued_event_count_of_nodes c l (Linked_nodup l _ hlink) hq⟩

/-- C16 on schedules at 50, 100, 50, a drain at 60 and a schedule at 70: the
chain is slots 0, 1, 2 (times 70, 100, 50) and exactly these three slots are
queued. -/
theorem reachable_eq_queued_witness :
    (NIGHTCAP_MAX_EVENTS < 17 ∧
      [api_call.schedule 50 1 false, api_call.schedule 100 1 false, api_call.schedule 50 1 false,
        api_call.dequeue 60, api_call.schedule 70 1 false].all one_shot_call = true) ∧
    (∃ c l, api_run 17 nightcap_chain_init
        [api_call.schedule 50 1 false, api_call.schedule 100 1 false,
          api_call.schedule 50 1 false, api_call.dequeue 60, api_call.schedule 70 1 false]
          = some c ∧ chain_nodes c = some l ∧
      (∀ i, i ∈ l ↔ (c.events i).queued = true) ∧
      nightcap_chain_get_queued_event_count c = l.length) ∧
    (api_run 17 nightcap_chain_init
        [api_call.schedule 50 1 false, api_call.schedule 100 1 false,
          api_call.schedule 50 1 false, api_call.dequeue 60, api_call.schedule 70 1 false]).map
      (fun c => (chain_nodes c, nightcap_chain_get_queued_event_count c))
      = some (some [0, 1, 2], 3) :=
  ⟨by decide,
   reachable_eq_queued 17 (by decide)
     [api_call.schedule 50 1 false, api_call.schedule 100 1 false, api_call.schedule 50 1 false,
       api_call.dequeue 60, api_call.schedule 70 1 false] (by decide),
   by decide⟩

/-! ### Schedules and reschedules: when the chain stays a simple list -/

theorem reschedule_spec (fuel : Nat) (chain : nightcap_chain_t) (e : Fin NIGHTCAP_MAX_EVENTS)
    (t : Nat) (l : List (Fin NIGHTCAP_MAX_EVENTS))
    (hlink : Linked chain.events chain.head l) (hmem : e ∉ l) (hfuel : l.length ≤ fuel) :
    ∃ c', nightcap_reschedule fuel chain e t = some c' ∧
      Linked c'.events c'.head (list_queue (fun i => (c'.events i).time) e l) ∧
      (∀ i, i ≠ e → ∃ nx, c'.events i = { chain.events i with next := nx }) ∧
      (∃ nx, c'.events e = { nightcap_event_reinit (chain.events e) t with next := nx }) := by
  let evt1 := nightcap_event_reinit (chain.events e) t
  let chain1 : nightcap_chain_t := { chain with events := pool_set chain.events e evt1 }
  have hlink1 : Linked chain1.events chain1.head l := by
    refine Linked_congr l _ ?_ hlink
    intro i hi
    have h2 : i ≠ e := fun h => hmem (h ▸ hi)
    show (pool_set chain.events e _ i).next = _
    rw [pool_set_other _ _ h2]
  have hnone : (chain1.events e).next = none := by
    show (pool_set chain.events e _ e).next = none
    rw [pool_set_same]
    rfl
  obtain ⟨c', hrun, hlk, hframe, _⟩ := chain_queue_spec fuel chain1 e l hlink1 hmem hnone hfuel
  have htm : (fun i => (chain1.events i).time) = (fun i => (c'.events i).time) := by
    funext i
    obtain ⟨nx, hnx⟩ := hframe i
    rw [hnx]
  refine ⟨c', hrun, ?_, ?_, ?_⟩
  · rw [← htm]
    exact hlk
  · intro i hi
    obtain ⟨nx, hnx⟩ := hframe i
    refine ⟨nx, ?_⟩
    rw [hnx]
    show ({ pool_set chain.events e _ i with next := nx } : nightcap_event_t) = _
    rw [pool_set_other _ _ hi]
  · obtain ⟨nx, hnx⟩ := hframe e
    refine ⟨nx, ?_⟩
    rw [hnx]
    show ({ pool_set chain.events e _ e with next := nx } : nightcap_event_t) = _
    rw [pool_set_same]

theorem detached_run_simple (fuel : Nat) (hfuel : NIGHTCAP_MAX_EVENTS ≤ fuel) :
    ∀ (calls : List api_call) (chain : nightcap_chain_t) (l : List (Fin NIGHTCAP_MAX_EVENTS)),
      Linked chain.events chain.head l → (∀ i ∈ l, (chain.events i).queued = true) →
      detached_run fuel chain calls = true →
      ∃ c' l', api_run fuel chain calls = some c' ∧ Linked c'.events c'.head l' ∧
        ∀ i ∈ l', (c'.events i).queued = true
  | [], chain, l, hlink, hq, _ => ⟨chain, l, rfl, hlink, hq⟩
  | call :: rest, chain, l, hlink, hq, hok => by
    simp only [detached_run, Bool.and_eq_true] at hok
    obtain ⟨hcall, hrest⟩ := hok
    have hlen : l.length ≤ fuel := le_trans (Linked_length_le l _ hlink) hfuel
    cases call with
    | schedule t cb rep =>
      cases hfree : nightcap_chain_get_unqueued_event chain with
      | none =>
        have hstep : api_step fuel chain (api_call.schedule t cb rep) = some chain := by
          simp only [api_step, nightcap_schedule, hfree, Option.map_some']
        rw [hstep] at hrest
        obtain ⟨c', l', hrun', hinv'⟩ := detached_run_simple fuel hfuel rest chain l hlink hq hrest
        exact ⟨c', l', by simp only [api_run, hstep, hrun'], hinv'⟩
      | some e =>
        obtain ⟨c1, hrun, hmem, hlk, hframe, hnew, _⟩ :=
          schedule_spec fuel chain t cb rep e l hfree hlink hq hlen
        have hstep : api_step fuel chain (api_call.schedule t cb rep) = some c1 := by
          simp only [api_step, hrun, Option.map_some']
        rw [hstep] at hrest
        have hq1 : ∀ i ∈ list_queue (fun i => (c1.events i).time) e l,
            (c1.events i).queued = true := by
          intro i hi
          rw [mem_list_queue] at hi
          by_cases hie : i = e
          · subst hie
            obtain ⟨nx, hnx⟩ := hnew
            rw [hnx]
            rfl
          · obtain ⟨nx, hnx⟩ := hframe i hie
            rw [hnx, event_with_next_queued]
            exact hq i (hi.resolve_left hie)
        obtain ⟨c', l', hrun', hinv'⟩ := detached_run_simple fuel hfuel rest c1 _ hlk hq1 hrest
        exact ⟨c', l', by simp only [api_run, hstep, hrun'], hinv'⟩
    | reschedule e t =>
      have hnodes : chain_nodes chain = some l := (chain_nodes_iff chain l).2 hlink
      simp only [detached_call, hnodes, decide_eq_true_eq] at hcall
      obtain ⟨c1, hrun, hlk, hframe, hnew⟩ := reschedule_spec fuel chain e t l hlink hcall hlen
      have hstep : api_step fuel chain (api_call.reschedule e t) = some c1 := by
        simp only [api_step, hrun]
      rw [hstep] at hrest
      have hq1 : ∀ i ∈ list_queue (fun i => (c1.events i).time) e l,
          (c1.events i).queued = true := by
        intro i hi
        rw [mem_list_queue] at hi
        by_cases hie : i = e
        · subst hie
          obtain ⟨nx, hnx⟩ := hnew
          rw [hnx]
          rfl
        · obtain ⟨nx, hnx⟩ := hframe i hie
          rw [hnx, event_with_next_queued]
          exact hq i (hi.resolve_left hie)
      obtain ⟨c', l', hrun', hinv'⟩ := detached_run_simple fuel hfuel rest c1 _ hlk hq1 hrest
      exact ⟨c', l', by simp only [api_run, hstep, hrun'], hinv'⟩
    | dequeue now =>
      simp [detached_call] at hcall

/-- C15 (as stated) fails: `nightcap_schedule` at time 10 takes slot 0, then
`nightcap_reschedule` of slot 0, still in the chain, at time 10 clears its
`next` and links it behind itself: `head` is slot 0 and slot 0's `next` is
slot 0, so the walk from `head` never reaches `NULL`. -/
theorem reschedule_in_chain_makes_cycle :
    (api_run 16 nightcap_chain_init
        [api_call.schedule 10 1 false, api_call.reschedule 0 10]).map
      (fun c => (c.head, (c.events 0).next, chain_nodes c))
      = some (some 0, some 0, none) := by
  decide

/-- C15 (amended): after any sequence of `nightcap_schedule` calls and
`nightcap_reschedule` calls, each reschedule applied (with any time) to a pool
slot that is not reachable from `head` when the call is made, every call has
returned and the walk from `head` visits no slot twice and ends at `NULL` after
at most 16 nodes. -/
theorem chain_stays_simple (fuel : Nat) (hfuel : NIGHTCAP_MAX_EVENTS ≤ fuel)
    (calls : List api_call) (hok : detached_run fuel nightcap_chain_init calls = true) :
    ∃ c l, api_run fuel nightcap_chain_init calls = some c ∧ chain_nodes c = some l ∧
      l.Nodup ∧ l.length ≤ NIGHTCAP_MAX_EVENTS := by
  obtain ⟨c, l, hrun, hlink, _⟩ := detached_run_simple fuel hfuel calls nightcap_chain_init []
    rfl (fun _ hx => absurd hx (List.not_mem_nil _)) hok
  exact ⟨c, l, hrun, (chain_nodes_iff c l).2 hlink, Linked_nodup l _ hlink,
    Linked_length_le l _ hlink⟩

/-- C15 (amended) on schedules at 50 and 100 followed by a reschedule of the
unused slot 5 at 70: the chain is slots 0, 5, 1. -/
theorem chain_stays_simple_witness :
    (NIGHTCAP_MAX_EVENTS ≤ 16 ∧
      detached_run 16 nightcap_chain_init
        [api_call.schedule 50 1 false, api_call.schedule 100 1 false, api_call.reschedule 5 70]
        = true) ∧
    (∃ c l, api_run 16 nightcap_chain_init
        [api_call.schedule 50 1 false, api_call.schedule 100 1 false, api_call.reschedule 5 70]
          = some c ∧ chain_nodes c = some l ∧ l.Nodup ∧ l.length ≤ NIGHTCAP_MAX_EVENTS) ∧
    (api_run 16 nightcap_chain_init
        [api_call.schedule 50 1 false, api_call.schedule 100 1 false,
          api_call.reschedule 5 70]).map chain_nodes = some (some [0, 5, 1]) :=
  ⟨by decide,
   chain_stays_simple 16 (by decide)
     [api_call.schedule 50 1 false, api_call.schedule 100 1 false, api_call.reschedule 5 70]
     (by decide),
   by decide⟩

/-! ### Schedules with pairwise distinct times -/

theorem list_queue_loop_perm (tm : Fin NIGHTCAP_MAX_EVENTS → Nat) (e : Fin NIGHTCAP_MAX_EVENTS) :
    ∀ l : List (Fin NIGHTCAP_MAX_EVENTS), (list_queue_loop tm e l).Perm (e :: l)
  | [] => List.Perm.refl _
  | [tp] => List.Perm.swap e tp []
  | tp :: nxt :: rest => by
    rw [list_queue_loop_cons_cons]
    by_cases hc : tm e > tm tp ∧ tm e < tm nxt
    · rw [if_pos hc]
      exact List.Perm.swap e tp _
    · rw [if_neg hc]
      exact ((list_queue_loop_perm tm e (nxt :: rest)).cons tp).trans (List.Perm.swap e tp _)

theorem list_queue_perm (tm : Fin NIGHTCAP_MAX_EVENTS → Nat) (e : Fin NIGHTCAP_MAX_EVENTS)
    (l : List (Fin NIGHTCAP_MAX_EVENTS)) : (list_queue tm e l).Perm (e :: l) := by
  cases l with
  | nil => exact List.Perm.refl _
  | cons h rest =>
    by_cases hc : tm e < tm h
    · simp only [list_queue, hc, if_true]
      exact List.Perm.refl _
    · simp only [list_queue, hc, if_false]
      exact list_queue_loop_perm tm e (h :: rest)

theorem free_slot_of_short_chain (chain : nightcap_chain_t) (l : List (Fin NIGHTCAP_MAX_EVENTS))
    (hq : ∀ i, (chain.events i).queued = true ↔ i ∈ l) (hlen : l.length < NIGHTCAP_MAX_EVENTS) :
    ∃ e, nightcap_chain_get_unqueued_event chain = some e := by
  cases hget : nightcap_chain_get_unqueued_event chain with
  | some e => exact ⟨e, rfl⟩
  | none =>
    exfalso
    have hall := (get_unqueued_event_eq_none chain).1 hget
    have hsub : List.finRange NIGHTCAP_MAX_EVENTS ⊆ l := fun i _ => (hq i).1 (hall i)
    have hle := (List.subperm_of_subset (List.nodup_finRange _) hsub).length_le
    rw [List.length_finRange] at hle
    omega

theorem DistinctInv_schedule_all (fuel : Nat) (hfuel : NIGHTCAP_MAX_EVENTS ≤ fuel) :
    ∀ (rest : List (Nat × Nat × Bool)) (chain : nightcap_chain_t)
      (l : List (Fin NIGHTCAP_MAX_EVENTS)) (done : List (Nat × Nat × Bool)),
      DistinctInv chain l done → ((done ++ rest).map (fun x => x.1)).Nodup →
      (done ++ rest).length ≤ NIGHTCAP_MAX_EVENTS →
      ∃ c' l', schedule_all fuel chain rest = some c' ∧ DistinctInv c' l' (done ++ rest)
  | [], chain, l, done, hinv, _, _ => ⟨chain, l, rfl, by rw [List.append_nil]; exact hinv⟩
  | (t, cb, rep) :: rest, chain, l, done, hinv, hdist, hlen => by
    obtain ⟨hlink, hq, hs, hperm⟩ := hinv
    have hll : l.length = done.length := by
      rw [← hperm.length_eq, List.length_map]
    have hshort : l.length < NIGHTCAP_MAX_EVENTS := by
      rw [List.length_append, List.length_cons] at hlen
      omega
    obtain ⟨e, hfree⟩ := free_slot_of_short_chain chain l hq hshort
    obtain ⟨c1, hrun, hmem, hlk, hframe, hnew, _⟩ :=
      schedule_spec fuel chain t cb rep e l hfree hlink (fun i hi => (hq i).2 hi)
        (le_trans (le_of_lt hshort) hfuel)
    obtain ⟨nxe, hnxe⟩ := hnew
    have hte : (c1.events e).time = t := by rw [hnxe]; rfl
    have hcall_e : event_call c1 e = (t, cb, rep) := by
      unfold event_call
      rw [hnxe]
      rfl
    have hcall : ∀ i ∈ l, event_call c1 i = event_call chain i := by
      intro i hi
      obtain ⟨nx, hnx⟩ := hframe i (fun h => hmem (h ▸ hi))
      unfold event_call
      rw [hnx]
    have hagree : ∀ i ∈ l, (c1.events i).time = (chain.events i).time :=
      fun i hi => congrArg Prod.fst (hcall i hi)
    have hnotin : t ∉ done.map (fun x => x.1) := by
      rw [List.map_append, List.map_cons] at hdist
      have h1 := List.disjoint_of_nodup_append hdist
      intro hin
      exact h1 hin (List.mem_cons_self _ _)
    have hinv1 : DistinctInv c1 (list_queue (fun i => (c1.events i).time) e l)
        (done ++ [(t, cb, rep)]) := by
      refine ⟨hlk, ?_, ?_, ?_⟩
      · intro i
        rw [mem_list_queue]
        by_cases hie : i = e
        · subst hie
          refine ⟨fun _ => Or.inl rfl, fun _ => ?_⟩
          rw [hnxe]
          rfl
        · obtain ⟨nx, hnx⟩ := hframe i hie
          rw [hnx, event_with_next_queued, hq i]
          exact ⟨fun h => Or.inr h, fun h => h.resolve_left hie⟩
      · refine list_queue_strict _ e l ?_ ?_
        · refine List.Pairwise.imp_of_mem ?_ hs
          intro a b ha hb hab
          rw [hagree a ha, hagree b hb]
          exact hab
        · intro x hx
          show (c1.events x).time ≠ (c1.events e).time
          rw [hagree x hx, hte]
          intro hxt
          apply hnotin
          have hmemd : event_call chain x ∈ done :=
            hperm.mem_iff.1 (List.mem_map_of_mem _ hx)
          have := List.mem_map_of_mem (fun x : Nat × Nat × Bool => x.1) hmemd
          rw [← hxt]
          exact this
      · have h1 : ((list_queue (fun i => (c1.events i).time) e l).map (event_call c1)).Perm
            ((e :: l).map (event_call c1)) := (list_queue_perm _ e l).map _
        have h2 : (e :: l).map (event_call c1) = (t, cb, rep) :: l.map (event_call chain) := by
          rw [List.map_cons, hcall_e, List.map_congr_left hcall]
        rw [h2] at h1
        exact h1.trans ((hperm.cons _).trans (List.perm_append_singleton _ _).symm)
    have happ : done ++ (t, cb, rep) :: rest = (done ++ [(t, cb, rep)]) ++ rest := by
      rw [List.append_assoc]
      rfl
    rw [happ] at hdist hlen ⊢
    obtain ⟨c', l', hrun', hinv'⟩ :=
      DistinctInv_schedule_all fuel hfuel rest c1 _ (done ++ [(t, cb, rep)]) hinv1 hdist hlen
    exact ⟨c', l', by simp only [schedule_all, hrun, hrun'], hinv'⟩

/-- C20: for at most 16 `nightcap_schedule` calls with pairwise distinct times
on a fresh chain, after each call (after the first `k` calls, for every `k`)
all calls so far have returned, the times read from `head` are strictly
increasing, and the nodes of the chain hold exactly the calls made so far
(time, callback and repeating flag). -/
theorem schedule_distinct_sorted (fuel : Nat) (hfuel : NIGHTCAP_MAX_EVENTS ≤ fuel)
    (calls : List (Nat × Nat × Bool)) (hlen : calls.length ≤ NIGHTCAP_MAX_EVENTS)
    (hdist : (calls.map (fun x => x.1)).Nodup) (k : Nat) :
    ∃ c l, schedule_all fuel nightcap_chain_init (calls.take k) = some c ∧
      chain_nodes c = some l ∧
      (l.map (fun i => (c.events i).time)).Sorted (· < ·) ∧
      (l.map (event_call c)).Perm (calls.take k) := by
  have hlen' : ([] ++ calls.take k).length ≤ NIGHTCAP_MAX_EVENTS := by
    rw [List.nil_append]
    exact le_trans ((List.take_sublist k calls).length_le) hlen
  have hdist' : (([] ++ calls.take k).map (fun x : Nat × Nat × Bool => x.1)).Nodup := by
    rw [List.nil_append]
    exact hdist.sublist ((List.take_sublist k calls).map _)
  obtain ⟨c, l, hrun, hlink, _, hs, hperm⟩ :=
    DistinctInv_schedule_all fuel hfuel (calls.take k) nightcap_chain_init [] []
      ⟨rfl, fun _ => ⟨fun h => (by cases h), fun h => absurd h (List.not_mem_nil _)⟩,
        List.Pairwise.nil, List.Perm.refl _⟩ hdist' hlen'
  refine ⟨c, l, hrun, (chain_nodes_iff c l).2 hlink, ?_, ?_⟩
  · exact List.pairwise_map.2 hs
  · rw [List.nil_append] at hperm
    exact hperm

/-- C20 on schedules at 100, 50, 75, after the second and after the third call. -/
theorem schedule_distinct_sorted_witness :
    (NIGHTCAP_MAX_EVENTS ≤ 16 ∧
      [(100, 1, false), (50, 2, true), (75, 3, false)].length ≤ NIGHTCAP_MAX_EVENTS ∧
      ([(100, 1, false), (50, 2, true), (75, 3, false)].map
        (fun x : Nat × Nat × Bool => x.1)).Nodup) ∧
    (∃ c l, schedule_all 16 nightcap_chain_init
          ([(100, 1, false), (50, 2, true), (75, 3, false)].take 2) = some c ∧
      chain_nodes c = some l ∧
      (l.map (fun i => (c.events i).time)).Sorted (· < ·) ∧
      (l.map (event_call c)).Perm ([(100, 1, false), (50, 2, true), (75, 3, false)].take 2)) ∧
    (schedule_all 16 nightcap_chain_init
        [(100, 1, false), (50, 2, true), (75, 3, false)]).bind chain_times
      = some [50, 75, 100] :=
  ⟨by decide,
   schedule_distinct_sorted 16 (by decide) [(100, 1, false), (50, 2, true), (75, 3, false)]
     (by decide) (by decide) 2,
   by decide⟩

/-! ### Draining when a callback reschedules its own event -/

theorem dequeue_spec_of_inert
    (run : Nat → Fin NIGHTCAP_MAX_EVENTS → nightcap_chain_t → Option nightcap_chain_t) :
    ∀ (l : List (Fin NIGHTCAP_MAX_EVENTS)) (chain : nightcap_chain_t) (fuel now : Nat),
      Linked chain.events chain.head l → l.length < fuel →
      (∀ i ∈ l.takeWhile (fun i => decide ((chain.events i).time ≤ now)),
        ∀ cb c, run cb i c = some c) →
      ∃ c', nightcap_chain_dequeue run fuel chain now =
          some (c', l.takeWhile (fun i => decide ((chain.events i).time ≤ now))) ∧
        Linked c'.events c'.head (l.dropWhile (fun i => decide ((chain.events i).time ≤ now))) ∧
        (∀ i, i ∉ l.takeWhile (fun i => decide ((chain.events i).time ≤ now)) →
          c'.events i = chain.events i) := by
  intro l
  induction l with
  | nil =>
    intro chain fuel now hlink hfuel _
    have hhead : chain.head = none := hlink
    obtain ⟨f, rfl⟩ : ∃ f, fuel = f + 1 := ⟨fuel - 1, by omega⟩
    exact ⟨chain, by simp only [nightcap_chain_dequeue, hhead, List.takeWhile_nil], hlink,
      fun _ _ => rfl⟩
  | cons h rest ih =>
    intro chain fuel now hlink hfuel hr
    have hhead : chain.head = some h := hlink.1
    have hrest : Linked chain.events (chain.events h).next rest := hlink.2
    have hnodup := Linked_nodup _ _ hlink
    have hnot : h ∉ rest := (List.nodup_cons.1 hnodup).1
    obtain ⟨f, rfl⟩ : ∃ f, fuel = f + 1 := ⟨fuel - 1, by omega⟩
    by_cases hc : (chain.events h).time ≤ now
    · have htw : (h :: rest).takeWhile (fun i => decide ((chain.events i).time ≤ now))
          = h :: rest.takeWhile (fun i => decide ((chain.events i).time ≤ now)) := by
        simp [List.takeWhile_cons, hc]
      have hdw : (h :: rest).dropWhile (fun i => decide ((chain.events i).time ≤ now))
          = rest.dropWhile (fun i => decide ((chain.events i).time ≤ now)) := by
        simp [List.dropWhile_cons, hc]
      rw [htw] at hr
      have hrh : ∀ cb c, run cb h c = some c := hr h (List.mem_cons_self _ _)
      let evt1 : nightcap_event_t :=
        { chain.events h with queued := (chain.events h).queued && (chain.events h).repeating }
      let chain3 : nightcap_chain_t :=
        { _mut_flag := false, head := (chain.events h).next,
          events := pool_set chain.events h evt1 }
      have hnext3 : ∀ i, (chain3.events i).next = (chain.events i).next := by
        intro i
        show (pool_set chain.events h evt1 i).next = _
        by_cases hi : i = h
        · subst hi
          rw [pool_set_same]
        · rw [pool_set_other _ _ hi]
      have htime3 : ∀ i, (chain3.events i).time = (chain.events i).time := by
        intro i
        show (pool_set chain.events h evt1 i).time = _
        by_cases hi : i = h
        · subst hi
          rw [pool_set_same]
        · rw [pool_set_other _ _ hi]
      have hlink3 : Linked chain3.events chain3.head rest :=
        Linked_congr rest _ (fun i _ => hnext3 i) hrest
      have hlen : rest.length < f := by simp at hfuel; omega
      have hp : (fun i => decide ((chain3.events i).time ≤ now))
          = (fun i => decide ((chain.events i).time ≤ now)) := by
        funext i
        rw [htime3 i]
      have hr3 : ∀ i ∈ rest.takeWhile (fun i => decide ((chain3.events i).time ≤ now)),
          ∀ cb c, run cb i c = some c := by
        rw [hp]
        exact fun i hi => hr i (List.mem_cons_of_mem _ hi)
      obtain ⟨c', hrun, hlk, hout⟩ := ih chain3 f now hlink3 hlen hr3
      rw [hp] at hrun hlk hout
      have hnotfired : h ∉ rest.takeWhile (fun i => decide ((chain.events i).time ≤ now)) :=
        fun hm => hnot (List.takeWhile_subset _ hm)
      rw [htw, hdw]
      refine ⟨c', ?_, hlk, ?_⟩
      · have hstep : nightcap_chain_dequeue run (f + 1) chain now
            = (nightcap_chain_dequeue run f chain3 now).map (fun r => (r.1, h :: r.2)) := by
          simp only [nightcap_chain_dequeue, hhead, ge_iff_le, hc, if_true, hrh]
        rw [hstep, hrun]
        rfl
      · intro i hi
        rw [List.mem_cons, not_or] at hi
        rw [hout i hi.2]
        show pool_set chain.events h evt1 i = _
        rw [pool_set_other _ _ hi.1]
    · have htw : (h :: rest).takeWhile (fun i => decide ((chain.events i).time ≤ now)) = [] := by
        simp [List.takeWhile_cons, hc]
      have hdw : (h :: rest).dropWhile (fun i => decide ((chain.events i).time ≤ now))
          = h :: rest := by
        simp [List.dropWhile_cons, hc]
      rw [htw, hdw]
      refine ⟨chain, ?_, hlink, fun _ _ => rfl⟩
      simp only [nightcap_chain_dequeue, hhead, ge_iff_le, hc, if_false]

/-- C18 (as stated) fails for a one-shot event: on the chain holding one
one-shot event due at 5, a drain at 10 whose callback reschedules the firing
event to 100 returns with that event linked from `head` at time 100, but the
flag update after the callback has cleared its `queued` flag. -/
theorem reschedule_in_callback_one_shot_unqueued :
    chain_nodes (chain_of_calls [(5, 1, false)]) = some [0] ∧
    (nightcap_chain_dequeue (run_reschedule_slot 17 0 100) 17
        (chain_of_calls [(5, 1, false)]) 10).map
      (fun r => (r.2, chain_nodes r.1, (r.1.events 0).time, (r.1.events 0).queued))
      = some ([0], some [0], 100, false) := by
  decide

/-- C18 (amended): on a chain whose `next` walk from `head` reaches `NULL` with
non-decreasing times, whose head event is repeating and due (`time ≤ now`) and
whose callback calls `nightcap_reschedule` on that same event with a new time
`> now` (the other callbacks leave the chain alone),
`nightcap_chain_dequeue(chain, now)` returns having fired the head event, and
afterwards that event is reachable from `head`, carries the new time and has
`queued` set. -/
theorem reschedule_in_callback_requeues (chain : nightcap_chain_t)
    (h : Fin NIGHTCAP_MAX_EVENTS) (rest : List (Fin NIGHTCAP_MAX_EVENTS))
    (n fuel now t' : Nat)
    (hwalk : chain_walk chain.events n chain.head = some (h :: rest))
    (_hsorted : ((h :: rest).map (fun i => (chain.events i).time)).Sorted (· ≤ ·))
    (hdue : (chain.events h).time ≤ now) (hnew : now < t')
    (hrep : (chain.events h).repeating = true)
    (hfuel : (h :: rest).length + 1 < fuel) :
    ∃ c' fired l', nightcap_chain_dequeue (run_reschedule_slot fuel h t') fuel chain now
        = some (c', fired) ∧
      h ∈ fired ∧ chain_nodes c' = some l' ∧ h ∈ l' ∧
      (c'.events h).queued = true ∧ (c'.events h).time = t' := by
  have hlink := ((chain_walk_iff n _ _).1 hwalk).1
  have hhead : chain.head = some h := hlink.1
  have hrest : Linked chain.events (chain.events h).next rest := hlink.2
  have hnot : h ∉ rest := (List.nodup_cons.1 (Linked_nodup _ _ hlink)).1
  obtain ⟨f, rfl⟩ : ∃ f, fuel = f + 1 := ⟨fuel - 1, by omega⟩
  have hlenr : rest.length ≤ f + 1 := by
    rw [List.length_cons] at hfuel
    omega
  let chain1 : nightcap_chain_t :=
    { _mut_flag := false, head := (chain.events h).next, events := chain.events }
  obtain ⟨c2, hrun2, hlk2, _, hnew2⟩ :=
    reschedule_spec (f + 1) chain1 h t' rest hrest hnot hlenr
  obtain ⟨nxh, hnxh⟩ := hnew2
  have hq2 : (c2.events h).queued = true := by rw [hnxh]; rfl
  have hr2 : (c2.events h).repeating = true := by
    rw [hnxh]
    exact hrep
  have ht2 : (c2.events h).time = t' := by rw [hnxh]; rfl
  let evt1 : nightcap_event_t :=
    { c2.events h with queued := (c2.events h).queued && (c2.events h).repeating }
  let chain3 : nightcap_chain_t := { c2 with events := pool_set c2.events h evt1 }
  have hnext3 : ∀ i, (chain3.events i).next = (c2.events i).next := by
    intro i
    show (pool_set c2.events h evt1 i).next = _
    by_cases hi : i = h
    · subst hi
      rw [pool_set_same]
    · rw [pool_set_other _ _ hi]
  have htime3 : ∀ i, (chain3.events i).time = (c2.events i).time := by
    intro i
    show (pool_set c2.events h evt1 i).time = _
    by_cases hi : i = h
    · subst hi
      rw [pool_set_same]
    · rw [pool_set_other _ _ hi]
  have hq3 : (chain3.events h).queued = true := by
    show (pool_set c2.events h evt1 h).queued = true
    rw [pool_set_same]
    show ((c2.events h).queued && (c2.events h).repeating) = true
    rw [hq2, hr2]
    rfl
  have hlk3 : Linked chain3.events chain3.head
      (list_queue (fun i => (c2.events i).time) h rest) :=
    Linked_congr _ _ (fun i _ => hnext3 i) hlk2
  have hlen3 : (list_queue (fun i => (c2.events i).time) h rest).length < f := by
    rw [(list_queue_perm _ h rest).length_eq]
    exact Nat.lt_of_succ_lt_succ hfuel
  have hph : decide ((chain3.events h).time ≤ now) = false := by
    rw [htime3 h, ht2]
    exact decide_eq_false (by omega)
  have hnotfired : h ∉ (list_queue (fun i => (c2.events i).time) h rest).takeWhile
      (fun i => decide ((chain3.events i).time ≤ now)) := by
    intro hm
    have := List.mem_takeWhile_imp hm
    rw [hph] at this
    cases this
  have hinert : ∀ i ∈ (list_queue (fun i => (c2.events i).time) h rest).takeWhile
      (fun i => decide ((chain3.events i).time ≤ now)),
      ∀ cb c, run_reschedule_slot (f + 1) h t' cb i c = some c := by
    intro i hi cb c
    have hne : i ≠ h := fun hih => hnotfired (hih ▸ hi)
    simp only [run_reschedule_slot, hne, if_false]
  obtain ⟨c', hrun', hlk', hout'⟩ :=
    dequeue_spec_of_inert (run_reschedule_slot (f + 1) h t') _ chain3 f now hlk3 hlen3 hinert
  have hstep : nightcap_chain_dequeue (run_reschedule_slot (f + 1) h t') (f + 1) chain now
      = (nightcap_chain_dequeue (run_reschedule_slot (f + 1) h t') f chain3 now).map
          (fun r => (r.1, h :: r.2)) := by
    have hcb : ∀ cb, run_reschedule_slot (f + 1) h t' cb h chain1 = some c2 := by
      intro cb
      simp only [run_reschedule_slot, if_true]
      exact hrun2
    simp only [nightcap_chain_dequeue, hhead, ge_iff_le, hdue, if_true]
    rw [hcb]
  have hmem2 : h ∈ list_queue (fun i => (c2.events i).time) h rest :=
    (mem_list_queue _ h h rest).2 (Or.inl rfl)
  have hsplit := List.takeWhile_append_dropWhile
    (fun i => decide ((chain3.events i).time ≤ now))
    (list_queue (fun i => (c2.events i).time) h rest)
  have hin_drop : h ∈ (list_queue (fun i => (c2.events i).time) h rest).dropWhile
      (fun i => decide ((chain3.events i).time ≤ now)) := by
    rw [← hsplit, List.mem_append] at hmem2
    exact hmem2.resolve_left hnotfired
  refine ⟨c', h :: (list_queue (fun i => (c2.events i).time) h rest).takeWhile
      (fun i => decide ((chain3.events i).time ≤ now)), _, ?_, List.mem_cons_self _ _,
    (chain_nodes_iff c' _).2 hlk', hin_drop, ?_, ?_⟩
  · rw [hstep, hrun']
    rfl
  · rw [hout' h hnotfired]
    exact hq3
  · rw [hout' h hnotfired, htime3 h, ht2]

/-- C18 (amended) on a repeating event at 5 and a one-shot event at 50, drained
at 10, the callback of slot 0 rescheduling it to 100: slot 0 is fired, and
afterwards the chain is slots 1, 0 with slot 0 queued at time 100. -/
theorem reschedule_in_callback_requeues_witness :
    (chain_walk (chain_of_calls [(5, 1, true), (50, 1, false)]).events 16
        (chain_of_calls [(5, 1, true), (50, 1, false)]).head = some [0, 1] ∧
      (([0, 1] : List (Fin NIGHTCAP_MAX_EVENTS)).map
        (fun i => ((chain_of_calls [(5, 1, true), (50, 1, false)]).events i).time)).Sorted
          (· ≤ ·) ∧
      ((chain_of_calls [(5, 1, true), (50, 1, false)]).events 0).time ≤ 10 ∧ 10 < 100 ∧
      ((chain_of_calls [(5, 1, true), (50, 1, false)]).events 0).repeating = true ∧
      ([0, 1] : List (Fin NIGHTCAP_MAX_EVENTS)).length + 1 < 4) ∧
    (∃ c' fired l', nightcap_chain_dequeue (run_reschedule_slot 4 0 100) 4
        (chain_of_calls [(5, 1, true), (50, 1, false)]) 10 = some (c', fired) ∧
      (0 : Fin NIGHTCAP_MAX_EVENTS) ∈ fired ∧ chain_nodes c' = some l' ∧
      (0 : Fin NIGHTCAP_MAX_EVENTS) ∈ l' ∧
      (c'.events 0).queued = true ∧ (c'.events 0).time = 100) ∧
    (nightcap_chain_dequeue (run_reschedule_slot 4 0 100) 4
        (chain_of_calls [(5, 1, true), (50, 1, false)]) 10).map
      (fun r => (r.2, chain_nodes r.1, (r.1.events 0).time, (r.1.events 0).queued))
      = some ([0], some [1, 0], 100, true) :=
  ⟨by decide,
   reschedule_in_callback_requeues (chain_of_calls [(5, 1, true), (50, 1, false)]) 0 [1] 16 4 10
     100 (by decide) (by decide) (by decide) (by decide) (by decide) (by decide),
   by decide⟩

end Nightcap
